import Mathlib

/-!
Verification development for the `deepcell_tracking.utils` module: a shallow
embedding of its label relabeler (`clean_up_annotations`), pair-sampling
estimator (`count_pairs`), archive codec (`save_trks` / `load_trks`) and
statistics pass (`trks_stats`), together with theorems settling the spec's
claims about them.

Modelling conventions: numpy integer arrays are nested lists of `Int`
(machine-width casts such as `astype('int32')` never overflow for the value
ranges the claims quantify over, so values are ideal integers); Python floats
arising from `np.average` and float division are modelled as `ℚ`; the tar
container is a finite map from path strings to records of optional entries;
fallible functions return `Except`.
-/

set_option maxHeartbeats 1000000

namespace DeepcellTracking

/-- A frame of an annotation volume (or a channel-gathered time slice of a
channels-first volume): a two-level grid of integer pixel labels, with 0
denoting background. -/
abbrev Grid := List (List Int)

/-- Model of `np.unique(arr)` followed by `np.delete(cells, np.where(cells == 0))`
(utils.py lines 61-62): the distinct non-zero values of the pixel multiset in
ascending order (sort, remove duplicates, drop the zeros). -/
def npUniqueNonzero (xs : List Int) : List Int :=
  ((xs.insertionSort (· ≤ ·)).dedup).filter (fun x => x ≠ 0)

/-- The masked assignment `y_frame_new[y_frame == cell_label] = uid`
(utils.py line 71) restricted to one row of pixels: wherever the original
row holds `l`, the current row is overwritten with `uid`. -/
def maskedAssignRow (orig cur : List Int) (l uid : Int) : List Int :=
  (orig.zip cur).map (fun p => if p.1 = l then uid else p.2)

/-- The masked assignment `y_frame_new[y_frame == cell_label] = uid` over a
whole grid, row by row. -/
def maskedAssign (orig cur : Grid) (l uid : Int) : Grid :=
  (orig.zip cur).map (fun p => maskedAssignRow p.1 p.2 l uid)

/-- The inner loop of utils.py lines 70-72
(`for cell_label in unique_cells: y_frame_new[y_frame == cell_label] = uid; uid += 1`)
acting on a single row, threading the running id counter. -/
def assignRow (yf : List Int) : List Int → List Int → Int → List Int × Int
  | cur, [], uid => (cur, uid)
  | cur, l :: rest, uid => assignRow yf (maskedAssignRow yf cur l uid) rest (uid + 1)

/-- The inner loop of utils.py lines 70-72 over a whole grid. -/
def assignCells (yf : Grid) : Grid → List Int → Int → Grid × Int
  | cur, [], uid => (cur, uid)
  | cur, l :: rest, uid => assignCells yf (maskedAssign yf cur l uid) rest (uid + 1)

/-- Model of `np.zeros(y_frame.shape)` (utils.py line 69): a grid of the same
shape holding 0 everywhere. -/
def zerosLike (g : Grid) : Grid :=
  g.map (fun row => List.replicate row.length 0)

/-- One iteration of the frame loop (utils.py lines 69-72): start from a zero
grid and assign each listed cell label the next id. -/
def relabelGrid (yf : Grid) (cells : List Int) (uid : Int) : Grid × Int :=
  assignCells yf (zerosLike yf) cells uid

/-- The `all_uniques` list collected by the first loop of
`clean_up_annotations` (utils.py lines 59-63): per frame, the distinct
non-zero labels in ascending order. -/
def allUniques (frames : List Grid) : List (List Int) :=
  frames.map (fun f => npUniqueNonzero f.flatten)

/-- Line 66 of utils.py:
`uid = sum(len(x) for x in all_uniques) + 1 if uid is None else uid`. -/
def defaultUid (uniques : List (List Int)) (uid : Option Int) : Int :=
  match uid with
  | none => ((uniques.map List.length).sum : ℕ) + 1
  | some u => u

/-- One iteration of the main loop of `clean_up_annotations` for the
channels-last layout (utils.py lines 67-76): read frame `f` from the array
being mutated, relabel it against its recorded distinct labels, and write the
result back into slot `f`. -/
def cleanStep (uniques : List (List Int)) (st : List Grid × Int) (f : ℕ) :
    List Grid × Int :=
  let yf := st.1.getD f []
  let r := relabelGrid yf (uniques.getD f []) st.2
  (st.1.set f r.1, r.2)

/-- The full state evolution of `clean_up_annotations` (channels-last): the
final contents of the array together with the final id counter.  The source
mutates the caller's array `y` in place (line 76 `y[frame] = y_frame_new`),
so the first component is also the caller's buffer after the call (the values
are integers throughout, so the write-back cast to `y`'s dtype and the final
`astype('int32')` both preserve them). -/
def cleanUpState (y : List Grid) (uid : Option Int) : List Grid × Int :=
  (List.range y.length).foldl (cleanStep (allUniques y)) (y, defaultUid (allUniques y) uid)

/-- Model of `clean_up_annotations(y, uid, data_format='channels_last')`
(utils.py lines 44-77) for a volume given as a list of frames (time major):
the returned `y.astype('int32')` array. -/
def clean_up_annotations (y : List Grid) (uid : Option Int) : List Grid :=
  (cleanUpState y uid).1

/-- The contents of the caller's argument array after `clean_up_annotations`
returns: the in-place writes of line 74/76 leave the relabeled volume in it. -/
def cleanUpMutatedArg (y : List Grid) (uid : Option Int) : List Grid :=
  (cleanUpState y uid).1

/-- Structural form of the main loop: relabel the frames in order, threading
the id counter from each frame into the next, and return the relabeled
frames together with the final counter.  Each list entry pairs a frame with
its recorded distinct labels. -/
def relabelSeq : List (Grid × List Int) → Int → List Grid × Int
  | [], u => ([], u)
  | p :: rest, u =>
      let r := relabelGrid p.1 p.2 u
      let t := relabelSeq rest r.2
      (r.1 :: t.1, t.2)

/-- The new value of a pixel of a frame whose distinct non-zero labels are
`cells` and whose first assigned id is `b`: background stays 0, and label
`x` becomes `b` plus the rank of `x` among the frame's labels. -/
def newLabel (cells : List Int) (b x : Int) : Int :=
  if x = 0 then 0 else b + (cells.indexOf x : ℕ)

/-- Closed form of the relabeling pass: frame `f` is mapped pointwise through
`newLabel` with its own label list, and the starting id of each frame is the
previous frame's starting id plus its label count. -/
def closedRelabel : List Grid → Int → List Grid
  | [], _ => []
  | yf :: rest, u =>
      yf.map (List.map (newLabel (npUniqueNonzero yf.flatten) u)) ::
        closedRelabel rest (u + ((npUniqueNonzero yf.flatten).length : ℕ))

/-- The per-frame distinct non-background label counts of a frame list. -/
def countsOf (y : List Grid) : List ℕ :=
  y.map (fun g => (npUniqueNonzero g.flatten).length)

/-- The distinct non-background labels of frame `f` of a frame list. -/
def uniqAt (y : List Grid) (f : ℕ) : List Int :=
  npUniqueNonzero ((y.getD f []).flatten)

/-- The id at which frame `f` starts its assignments, when the frames before
it consumed `ns.take f` many ids starting from `u`. -/
def uidBase : Int → List ℕ → ℕ → Int
  | u, _, 0 => u
  | u, [], _ + 1 => u
  | u, n :: rest, f + 1 => uidBase (u + (n : Int)) rest f

/-- Pixel accessor for a three-level nested list, with defaults outside the
bounds. -/
def pix3 (v : List (List (List Int))) (i j k : ℕ) : Int :=
  ((v.getD i []).getD j []).getD k 0

/-- Index-validity for a pixel position of a three-level nested list. -/
def inBounds3 (v : List (List (List Int))) (i j k : ℕ) : Prop :=
  i < v.length ∧ j < (v.getD i []).length ∧ k < ((v.getD i []).getD j []).length

instance (v : List (List (List Int))) (i j k : ℕ) : Decidable (inBounds3 v i j k) := by
  unfold inBounds3; infer_instance

/-- The time slice `y[:, f]` of a channels-first volume `y` (channel × time ×
flattened-spatial): one pixel row per channel. -/
def sliceAt (y : List (List (List Int))) (f : ℕ) : Grid :=
  y.map (fun ch => ch.getD f [])

/-- All time slices of a channels-first volume with `numFrames` frames
(`y.shape[1]` in the source), presented as a channels-last frame list. -/
def slicesOf (y : List (List (List Int))) (numFrames : ℕ) : List Grid :=
  (List.range numFrames).map (sliceAt y)

/-- The `all_uniques` list for the channels-first layout: per time slice
`y[:, f]`, the distinct non-zero labels in ascending order. -/
def allUniquesCF (y : List (List (List Int))) (numFrames : ℕ) : List (List Int) :=
  (List.range numFrames).map (fun f => npUniqueNonzero (sliceAt y f).flatten)

/-- One iteration of the main loop of `clean_up_annotations` for the
channels-first layout: read the slice `y[:, f]` from the array being mutated,
relabel it, and write it back (`y[:, f] = y_frame_new`), which replaces
index `f` inside every channel row. -/
def cleanStepCF (uniques : List (List Int)) (st : List (List (List Int)) × Int)
    (f : ℕ) : List (List (List Int)) × Int :=
  let yf := sliceAt st.1 f
  let r := relabelGrid yf (uniques.getD f []) st.2
  ((st.1.zip r.1).map (fun p => p.1.set f p.2), r.2)

/-- Model of `clean_up_annotations(y, uid, data_format='channels_first')`
(utils.py lines 44-77) for a volume given as channel × time ×
flattened-spatial nested lists; `num_frames = y.shape[1]` is the length of
the first channel row. -/
def cleanUpAnnotationsCF (y : List (List (List Int))) (uid : Option Int) :
    List (List (List Int)) :=
  let numFrames := (y.headD []).length
  let uniques := allUniquesCF y numFrames
  ((List.range numFrames).foldl (cleanStepCF uniques) (y, defaultUid uniques uid)).1

/-! ### The pair sampling estimator `count_pairs` (utils.py lines 115-157) -/

/-- Layout flag threaded through the source functions
(`data_format` in `{'channels_first', 'channels_last'}`). -/
inductive DataFormat where
  | channels_first : DataFormat
  | channels_last : DataFormat
deriving DecidableEq

/-- A 5-dimensional label tensor: five levels of list nesting.  Axis order is
(batch, time, rows, cols, channels) for channels-last and
(batch, channels, time, rows, cols) for channels-first. -/
abbrev Tensor5 := List (List (List (List (List Int))))

/-- All pixel values of a 3-level nested block, flattened. -/
def flat3 (x : List (List (List Int))) : List Int :=
  x.flatten.flatten

/-- The number of frames `y.shape[zaxis]` of a 5D tensor, where `zaxis` is 2
for channels-first and 1 for channels-last (utils.py line 128). -/
def numFrames5 (df : DataFormat) (y : Tensor5) : ℕ :=
  match df with
  | .channels_first => ((y.headD []).headD []).length
  | .channels_last => (y.headD []).length

/-- The pixels passed to `np.unique` for batch item `b` and frame `f`:
`y[b, :, f, :, :]` for channels-first and `y[b, f, :, :, :]` for
channels-last (utils.py lines 133-136). -/
def framePixels5 (df : DataFormat) (y : Tensor5) (b f : ℕ) : List Int :=
  match df with
  | .channels_first => flat3 ((y.getD b []).map (fun ch => ch.getD f []))
  | .channels_last => flat3 ((y.getD b []).getD f [])

/-- Model of `len(np.unique(arr))`: the number of distinct values of the
pixel multiset (the background value 0 is counted when present). -/
def npUniqueLen (xs : List Int) : ℕ :=
  xs.toFinset.card

/-- The `cells_per_image` list of `count_pairs` for one batch item
(utils.py lines 131-137). -/
def cellsPerImage (df : DataFormat) (y : Tensor5) (b : ℕ) : List Int :=
  (List.range (numFrames5 df y)).map (fun f => (npUniqueLen (framePixels5 df y b f) : ℕ))

/-- Python `max` over the per-frame counts.  The counts are non-negative and
the list is non-empty in every run that does not raise, so seeding the fold
with 0 agrees with Python's `max(cells_per_image)`. -/
def listMax (l : List Int) : Int :=
  l.foldl max 0

/-- The `average_cells_per_frame` value of `count_pairs` for one batch item
(utils.py line 148): Python integer floor division of the count sum by the
frame count. -/
def averageCells5 (df : DataFormat) (y : Tensor5) (b : ℕ) : Int :=
  Int.fdiv (cellsPerImage df y b).sum ((numFrames5 df y : ℕ) : Int)

/-- The `non_self_cellframes` value of `count_pairs` for one batch item
(utils.py line 149). -/
def nonSelfCellframes5 (df : DataFormat) (y : Tensor5) (b : ℕ) : Int :=
  (averageCells5 df y b - 1) * ((numFrames5 df y : ℕ) : Int)

/-- The `non_self_pairings` value of `count_pairs` for one batch item
(utils.py line 150). -/
def nonSelfPairings5 (df : DataFormat) (y : Tensor5) (b : ℕ) : Int :=
  nonSelfCellframes5 df y b * listMax (cellsPerImage df y b)

/-- The `cell_pairings` value computed for one batch item
(utils.py line 154): `non_self_pairings // same_probability` is float floor
division, modelled as the rational floor. -/
def pairsForBatch (df : DataFormat) (y : Tensor5) (p : ℚ) (b : ℕ) : Int :=
  ⌊((nonSelfPairings5 df y b : Int) : ℚ) / p⌋

/-- Model of `count_pairs(y, same_probability, data_format)`
(utils.py lines 115-157): the per-batch `cell_pairings` summed over the batch
axis.  Python returns this as an integer-valued float; its value is the
integer modelled here. -/
def count_pairs (y : Tensor5) (p : ℚ) (df : DataFormat) : Int :=
  ((List.range y.length).map (pairsForBatch df y p)).sum

/-- The per-frame count the claim attributes to `count_pairs`: the number of
distinct non-background labels in the frame (the code instead counts all
distinct values, including background). -/
def nzUniqueLen (xs : List Int) : ℕ :=
  (xs.toFinset.erase 0).card

/-- The `cells_per_image` list as the claim describes it: per frame, the
distinct non-background label count. -/
def cellsPerImageClaimed (df : DataFormat) (y : Tensor5) (b : ℕ) : List Int :=
  (List.range (numFrames5 df y)).map (fun f => (nzUniqueLen (framePixels5 df y b f) : ℕ))

/-- The claim's version of `non_self_pairings`, built from non-background
label counts. -/
def nonSelfPairingsClaimed (df : DataFormat) (y : Tensor5) (b : ℕ) : Int :=
  (Int.fdiv (cellsPerImageClaimed df y b).sum ((numFrames5 df y : ℕ) : Int) - 1) *
    ((numFrames5 df y : ℕ) : Int) * listMax (cellsPerImageClaimed df y b)

/-- The claim's version of the per-batch pairing count, built from
non-background label counts. -/
def pairsForBatchClaimed (df : DataFormat) (y : Tensor5) (p : ℚ) (b : ℕ) : Int :=
  ⌊((nonSelfPairingsClaimed df y b : Int) : ℚ) / p⌋

/-- Rectangularity of the frame axis of a 5D tensor for `count_pairs`: within
each batch item, all frames hold the same number of pixels (true of every
numpy array; list models could otherwise be ragged). -/
def uniformFrames5 (df : DataFormat) (y : Tensor5) : Prop :=
  ∀ b, b < y.length → ∀ f1, f1 < numFrames5 df y → ∀ f2, f2 < numFrames5 df y →
    (framePixels5 df y b f1).length = (framePixels5 df y b f2).length

instance (df : DataFormat) (y : Tensor5) : Decidable (uniformFrames5 df y) := by
  unfold uniformFrames5
  infer_instance

/-- The total `count_pairs` would return under the claim's reading
(non-background counts per frame). -/
def count_pairs_claimed (y : Tensor5) (p : ℚ) (df : DataFormat) : Int :=
  ((List.range y.length).map (pairsForBatchClaimed df y p)).sum

/-! ### The archive codec `save_trks` / `load_trks` (utils.py lines 160-260) -/

/-- A JSON object key as written by `json.dump` for an integer dict key: the
decimal string form, modelled by a sign flag together with the decimal digits
of the absolute value (least significant first, as produced by
`Nat.digits 10`). -/
structure JKey where
  neg : Bool
  digs : List ℕ
deriving DecidableEq

/-- Widening of an integer dict key to its JSON string form (`str(k)` inside
`json.dump`). -/
def encodeKey (i : Int) : JKey :=
  ⟨decide (i < 0), Nat.digits 10 i.natAbs⟩

/-- Narrowing of a JSON string key back to an integer (`int(k)` at utils.py
lines 192 and 199). -/
def decodeKey (k : JKey) : Int :=
  if k.neg then -(Nat.ofDigits 10 k.digs : ℕ) else (Nat.ofDigits 10 k.digs : ℕ)

/-- One lineage record: the fields of a cell's entry in a lineage graph.
JSON serialization round-trips these field values verbatim (only the
top-level integer keys are widened to strings), so they are carried
unchanged through the codec model. -/
structure LineageRecord where
  daughters : List Int
  frames : List Int
  parent : Option Int
deriving DecidableEq

/-- A lineage graph: a mapping from instance id to its record, for one batch
item.  Python dicts preserve insertion order, so the mapping is modelled as
an association list. -/
abbrev LineageGraph := List (Int × LineageRecord)

/-- A lineage graph as serialized inside the archive: string (decimal) keys. -/
abbrev JsonGraph := List (JKey × LineageRecord)

/-- Key widening over a whole graph (what `json.dump(lineages, ...)` does to
each dict). -/
def encodeGraph (g : LineageGraph) : JsonGraph :=
  g.map (fun kv => (encodeKey kv.1, kv.2))

/-- Key narrowing over a whole graph
(`{int(k): v for k, v in tracks.items()}`, utils.py lines 192/199). -/
def decodeGraph (g : JsonGraph) : LineageGraph :=
  g.map (fun kv => (decodeKey kv.1, kv.2))

/-- One tar container file: the entries the codec may store.  `np.save` /
`np.load` round-trip tensors exactly, so the tensor entries hold the tensor
values themselves. -/
structure TarFile where
  lineagesJson : Option (List JsonGraph)
  lineageJson : Option JsonGraph
  rawNpy : Option Tensor5
  trackedNpy : Option Tensor5
deriving DecidableEq

/-- The filesystem visible to the codec: a map from path to container file. -/
abbrev FileSys := String → Option TarFile

/-- Errors surfaced by the modelled operations.  `invalidArgument` is the
`ValueError` of the extension guards; `fileMissing` models `tarfile.open`
failing on an absent path; `missingEntry` models `tarfile` raising `KeyError`
for an absent member; `unboundLocal` models the Python `NameError` raised at
utils.py line 201 when `lineages` was never assigned. -/
inductive TrksError where
  | invalidArgument : TrksError
  | fileMissing : TrksError
  | missingEntry : TrksError
  | unboundLocal : TrksError
deriving DecidableEq

/-- Lowercasing of a string (`str.lower()`), character by character. -/
def lowerStr (s : String) : String :=
  ⟨s.data.map Char.toLower⟩

/-- Model of `str.endswith(t)`: the last `len(t)` characters equal `t`. -/
def endsWithStr (s t : String) : Bool :=
  s.data.reverse.take t.data.length == t.data.reverse

/-- The extension component of `os.path.splitext`, over a character list:
the suffix of the basename starting at its last dot, except that a dot
belonging to the leading-dot run of the basename starts no extension. -/
def splitExtChars (p : List Char) : List Char :=
  let revBase := p.reverse.takeWhile (fun c => c ≠ '/')
  let revTail := revBase.takeWhile (fun c => c ≠ '.')
  match revBase.dropWhile (fun c => c ≠ '.') with
  | [] => []
  | _ :: before =>
      if before.all (fun c => c = '.') then [] else (revTail ++ ['.']).reverse

/-- Model of `os.path.splitext(filename)[-1]` (utils.py lines 185 and 273). -/
def splitExtension (s : String) : String :=
  ⟨splitExtChars s.data⟩

/-- Model of `save_trks(filename, lineages, raw, tracked)`
(utils.py lines 231-260).  The extension guard
(`str(filename).lower().endswith('.trks')`) is checked before any
filesystem access; on success the container with the three entries is
written at `filename`.  The result pairs the filesystem after the call with
the call's outcome. -/
def save_trks (fs : FileSys) (filename : String) (lineages : List LineageGraph)
    (raw tracked : Tensor5) : FileSys × Except TrksError Unit :=
  if endsWithStr (lowerStr filename) ".trks" then
    (fun p =>
      if p = filename then
        some ⟨some (lineages.map encodeGraph), none, some raw, some tracked⟩
      else fs p,
     Except.ok ())
  else
    (fs, Except.error TrksError.invalidArgument)

/-- The normalized result of `load_trks` (utils.py line 201):
`{'lineages': lineages, 'X': raw, 'y': tracked}`. -/
structure LoadResult where
  lineages : List LineageGraph
  X : Tensor5
  y : Tensor5
deriving DecidableEq

/-- Model of `load_trks(filename)` (utils.py lines 160-201): open the
container, read the two tensor blobs, then dispatch on the (non-lowercased)
extension.  For `.trks` the `lineages.json` entry is parsed and every graph's
keys are narrowed to integers; for `.trk` the single `lineage.json` graph is
narrowed and wrapped in a one-element list; for any other extension the local
variable `lineages` is never assigned and the final `return` raises
`NameError` (modelled as `unboundLocal`). -/
def load_trks (fs : FileSys) (filename : String) : Except TrksError LoadResult :=
  match fs filename with
  | none => Except.error TrksError.fileMissing
  | some tar =>
    match tar.rawNpy with
    | none => Except.error TrksError.missingEntry
    | some raw =>
      match tar.trackedNpy with
      | none => Except.error TrksError.missingEntry
      | some tracked =>
        if splitExtension filename = ".trks" then
          match tar.lineagesJson with
          | none => Except.error TrksError.missingEntry
          | some ls => Except.ok ⟨ls.map decodeGraph, raw, tracked⟩
        else if splitExtension filename = ".trk" then
          match tar.lineageJson with
          | none => Except.error TrksError.missingEntry
          | some l => Except.ok ⟨[decodeGraph l], raw, tracked⟩
        else
          Except.error TrksError.unboundLocal

/-! ### The statistics pass `trks_stats` (utils.py lines 263-325) -/

/-- Model of `np.average` over an integer list: the rational mean. -/
def npAverageI (l : List Int) : ℚ :=
  (l.sum : ℚ) / (l.length : ℚ)

/-- Model of `np.average` over a list of rationals. -/
def npAverageQ (l : List ℚ) : ℚ :=
  l.sum / (l.length : ℚ)

/-- The five axis extents of a 5D tensor (head-based, as numpy's `shape`). -/
def shape5 (t : Tensor5) : ℕ × ℕ × ℕ × ℕ × ℕ :=
  (t.length, (t.headD []).length, ((t.headD []).headD []).length,
    (((t.headD []).headD []).headD []).length,
    ((((t.headD []).headD []).headD []).headD []).length)

/-- Axis extent `X.shape[2]` of a 5D tensor. -/
def shape2 (X : Tensor5) : ℕ :=
  ((X.headD []).headD []).length

/-- Axis extent `X.shape[3]` of a 5D tensor. -/
def shape3 (X : Tensor5) : ℕ :=
  (((X.headD []).headD []).headD []).length

/-- The quantities `trks_stats` computes and prints.  `avgCellDensity` is the
printed `avg_cells_per_sq_pixel * 100` and `avgTrackLength` is the computed
`avg_num_frames_per_track` (line 325 prints its `int(...)` truncation). -/
structure StatsReport where
  numLineages : ℕ
  avgCellDensity : ℚ
  totalTracks : ℕ
  totalDivisions : ℕ
  avgTrackLength : ℚ
deriving DecidableEq

/-- The computation body of `trks_stats` (utils.py lines 278-325) applied to
a decoded archive: the values the function prints. -/
def computeStats (d : LoadResult) : StatsReport :=
  let X := d.X
  let y := d.y
  let daughters := d.lineages.map (fun tracks => tracks.map (fun kv => (kv.1, kv.2.daughters)))
  let frameArea : ℚ := ((shape2 X * shape3 X : ℕ) : ℚ)
  let avgCellsInFrame : List ℚ :=
    y.map (fun batchFrames =>
      npAverageI (batchFrames.map (fun fr => (npUniqueLen (flat3 fr) : ℕ) - 1)))
  let avgCellsPerSqPixel := npAverageQ avgCellsInFrame / frameArea
  let totalTracks := (daughters.map List.length).sum
  let totalDivisions := (daughters.map (fun db => db.countP (fun kv => !kv.2.isEmpty))).sum
  let avgFrameCounts : List ℚ :=
    (List.range daughters.length).map (fun b =>
      npAverageI ((daughters.getD b []).map (fun kv =>
        (((y.getD b []).countP (fun fr => decide (kv.1 ∈ flat3 fr))) : ℕ))))
  let avgNumFramesPerTrack := npAverageQ avgFrameCounts
  ⟨d.lineages.length, avgCellsPerSqPixel * 100, totalTracks, totalDivisions,
    avgNumFramesPerTrack⟩

/-- The values `trks_stats(filename)` computes and prints
(utils.py lines 263-325): the extension guard
(`os.path.splitext(filename)[-1].lower() in {'.trks', '.trk'}`) is checked
before any filesystem access, then the archive is loaded through
`load_trks` and the statistics are computed. -/
def trksStatsPrinted (fs : FileSys) (filename : String) : Except TrksError StatsReport :=
  let ext := lowerStr (splitExtension filename)
  if ext = ".trks" ∨ ext = ".trk" then
    (load_trks fs filename).map computeStats
  else
    Except.error TrksError.invalidArgument

/-- Model of the call `trks_stats(filename)` itself: the Python function has
no `return` statement, so its value is `None` (here `Unit`); the statistics
only reach the caller through stdout. -/
def trks_stats (fs : FileSys) (filename : String) : Except TrksError Unit :=
  (trksStatsPrinted fs filename).map (fun _ => ())

/-- The cell density as claim C4 words it: per batch, the distinct
non-background label count of every frame, averaged over frames then over
batches, per 100 pixels of frame area. -/
def claimedDensity (X y : Tensor5) : ℚ :=
  100 * npAverageQ (y.map (fun batchFrames =>
      npAverageI (batchFrames.map (fun fr => (nzUniqueLen (flat3 fr) : ℕ)))))
    / ((shape2 X * shape3 X : ℕ) : ℚ)

/-- The average track length as claim C4 words it: per lineage entry, the
number of frames of its batch's tracked tensor in which the id appears,
averaged within each batch and then across batches. -/
def claimedTrackLength (lineages : List LineageGraph) (y : Tensor5) : ℚ :=
  npAverageQ ((List.range lineages.length).map (fun b =>
    npAverageI ((lineages.getD b []).map (fun kv =>
      (((y.getD b []).countP (fun fr => decide (kv.1 ∈ flat3 fr))) : ℕ)))))

/-- Total track count as claim C4 words it: the sum over batches of the
number of lineage graph entries. -/
def claimedTotalTracks (lineages : List LineageGraph) : ℕ :=
  (lineages.map List.length).sum

/-- Total division count as claim C4 words it: the sum over batches of the
entries whose `daughters` list is non-empty. -/
def claimedTotalDivisions (lineages : List LineageGraph) : ℕ :=
  (lineages.map (fun g => g.countP (fun kv => !kv.2.daughters.isEmpty))).sum

/-! ### Basic facts about the relabeler's building blocks -/

theorem mem_npUniqueNonzero {xs : List Int} {x : Int} :
    x ∈ npUniqueNonzero xs ↔ x ∈ xs ∧ x ≠ 0 := by
  simp only [npUniqueNonzero, List.mem_filter, List.mem_dedup,
    (List.perm_insertionSort (· ≤ ·) xs).mem_iff, decide_eq_true_eq]

theorem nodup_npUniqueNonzero (xs : List Int) : (npUniqueNonzero xs).Nodup :=
  (List.nodup_dedup _).filter _

theorem toFinset_npUniqueNonzero (xs : List Int) :
    (npUniqueNonzero xs).toFinset = xs.toFinset.erase 0 := by
  ext v
  simp only [List.mem_toFinset, mem_npUniqueNonzero, Finset.mem_erase]
  tauto

theorem length_npUniqueNonzero (xs : List Int) :
    (npUniqueNonzero xs).length = (xs.toFinset.erase 0).card := by
  rw [← toFinset_npUniqueNonzero,
    List.toFinset_card_of_nodup (nodup_npUniqueNonzero xs)]

theorem zip_map_zip {α β γ : Type} (g : α × β → γ) :
    ∀ (l₁ : List α) (l₂ : List β),
      l₁.zip ((l₁.zip l₂).map g) = (l₁.zip l₂).map (fun p => (p.1, g p))
  | [], _ => by simp
  | _ :: _, [] => by simp
  | a :: t₁, b :: t₂ => by simp [zip_map_zip g t₁ t₂]

theorem zip_map_self {α β : Type} (l : List α) (g : α → β) :
    l.zip (l.map g) = l.map (fun a => (a, g a)) := by
  induction l with
  | nil => rfl
  | cons a t ih => simp [ih]

theorem zip_replicate_zero (l : List Int) :
    l.zip (List.replicate l.length (0 : Int)) = l.map (fun x => (x, (0 : Int))) := by
  induction l with
  | nil => rfl
  | cons a t ih => simpa [List.replicate_succ] using ih

theorem length_maskedAssignRow (orig cur : List Int) (l uid : Int) :
    (maskedAssignRow orig cur l uid).length = min orig.length cur.length := by
  simp [maskedAssignRow]

theorem length_maskedAssign (orig cur : Grid) (l uid : Int) :
    (maskedAssign orig cur l uid).length = min orig.length cur.length := by
  simp [maskedAssign]

/-- Closed form of the inner cell loop on a single row: each pixel holding a
listed label receives the starting id plus that label's rank, every other
pixel keeps its current value, and the counter advances by the number of
labels. -/
theorem assignRow_eq (yf : List Int) (cells : List Int) :
    ∀ (cur : List Int) (uid : Int), cur.length = yf.length → cells.Nodup →
      assignRow yf cur cells uid =
        ((yf.zip cur).map (fun p =>
            if p.1 ∈ cells then uid + (cells.indexOf p.1 : ℕ) else p.2),
          uid + (cells.length : ℕ)) := by
  induction cells with
  | nil =>
    intro cur uid h _
    simp [assignRow, List.map_snd_zip _ _ (le_of_eq h)]
  | cons l rest ih =>
    intro cur uid h hnd
    have hl : l ∉ rest := (List.nodup_cons.mp hnd).1
    have hr : rest.Nodup := (List.nodup_cons.mp hnd).2
    show assignRow yf (maskedAssignRow yf cur l uid) rest (uid + 1) = _
    rw [ih _ _ (by simp [length_maskedAssignRow, h]) hr]
    refine Prod.ext ?_ ?_
    · show (yf.zip (maskedAssignRow yf cur l uid)).map _ = _
      rw [maskedAssignRow, zip_map_zip, List.map_map]
      refine List.map_congr_left (fun p _ => ?_)
      simp only [Function.comp_apply]
      by_cases hpl : p.1 = l
      · rw [if_neg (by rw [hpl]; exact hl), if_pos hpl,
          if_pos (by rw [hpl]; exact List.mem_cons_self l rest), hpl,
          List.indexOf_cons_self]
        simp
      · by_cases hpr : p.1 ∈ rest
        · have hne : l ≠ p.1 := fun e => hpl e.symm
          rw [if_pos hpr, if_pos (List.mem_cons_of_mem _ hpr),
            List.indexOf_cons_ne _ hne]
          push_cast
          ring
        · have hno : p.1 ∉ l :: rest := by
            simp [List.mem_cons, hpl, hpr]
          rw [if_neg hpr, if_neg hpl, if_neg hno]
    · show uid + 1 + ((rest.length : ℕ) : Int) = _
      rw [List.length_cons]
      push_cast
      ring

/-- Closed form of the inner cell loop on a grid: it acts row by row as
`assignRow`, all rows sharing the same id sequence. -/
theorem assignCells_eq (yf : Grid) (cells : List Int) :
    ∀ (cur : Grid) (uid : Int), cur.length = yf.length →
      assignCells yf cur cells uid =
        ((yf.zip cur).map (fun p => (assignRow p.1 p.2 cells uid).1),
          uid + (cells.length : ℕ)) := by
  induction cells with
  | nil =>
    intro cur uid h
    simp [assignCells, assignRow, List.map_snd_zip _ _ (le_of_eq h)]
  | cons l rest ih =>
    intro cur uid h
    show assignCells yf (maskedAssign yf cur l uid) rest (uid + 1) = _
    rw [ih _ _ (by simp [length_maskedAssign, h])]
    refine Prod.ext ?_ ?_
    · show (yf.zip (maskedAssign yf cur l uid)).map _ = _
      rw [maskedAssign, zip_map_zip, List.map_map]
      exact List.map_congr_left (fun p _ => rfl)
    · show uid + 1 + ((rest.length : ℕ) : Int) = _
      rw [List.length_cons]
      push_cast
      ring

theorem relabelGrid_snd (yf : Grid) (cells : List Int) (uid : Int) :
    (relabelGrid yf cells uid).2 = uid + (cells.length : ℕ) := by
  rw [relabelGrid, assignCells_eq _ _ _ _ (by simp [zerosLike])]

/-- Closed form of one frame's relabeling: every pixel is rewritten through
`newLabel` with the frame's distinct non-zero labels. -/
theorem relabelGrid_fst (yf : Grid) (uid : Int) :
    (relabelGrid yf (npUniqueNonzero yf.flatten) uid).1 =
      yf.map (List.map (newLabel (npUniqueNonzero yf.flatten) uid)) := by
  rw [relabelGrid, assignCells_eq _ _ _ _ (by simp [zerosLike])]
  show (yf.zip (zerosLike yf)).map _ = _
  rw [zerosLike, zip_map_self, List.map_map]
  refine List.map_congr_left (fun r hr => ?_)
  simp only [Function.comp_apply]
  rw [assignRow_eq _ _ _ _ (by simp) (nodup_npUniqueNonzero _)]
  show (r.zip (List.replicate r.length 0)).map _ = _
  rw [zip_replicate_zero, List.map_map]
  refine List.map_congr_left (fun x hx => ?_)
  simp only [Function.comp_apply]
  have hmem : x ∈ yf.flatten := List.mem_flatten.2 ⟨r, hr, hx⟩
  by_cases hx0 : x = 0
  · have hno : x ∉ npUniqueNonzero yf.flatten := fun hc =>
      (mem_npUniqueNonzero.mp hc).2 hx0
    rw [if_neg hno, newLabel, if_pos hx0]
  · have hyes : x ∈ npUniqueNonzero yf.flatten := mem_npUniqueNonzero.2 ⟨hmem, hx0⟩
    rw [if_pos hyes, newLabel, if_neg hx0]

theorem relabelSeq_eq_closed (y : List Grid) :
    ∀ u : Int, (relabelSeq (y.zip (allUniques y)) u).1 = closedRelabel y u := by
  induction y with
  | nil => intro u; rfl
  | cons yf rest ih =>
    intro u
    show (relabelGrid yf (npUniqueNonzero yf.flatten) u).1 :: _ = _
    rw [relabelGrid_fst, relabelGrid_snd]
    exact congrArg _ (ih _)

theorem newLabel_zero (cells : List Int) (b : Int) : newLabel cells b 0 = 0 :=
  if_pos rfl

theorem newLabel_of_ne {cells : List Int} {b x : Int} (hx : x ≠ 0) :
    newLabel cells b x = b + (cells.indexOf x : ℕ) :=
  if_neg hx

theorem uidBase_zero (u : Int) (ns : List ℕ) : uidBase u ns 0 = u := by
  cases ns <;> rfl

theorem uidBase_nil (u : Int) (f : ℕ) : uidBase u [] f = u := by
  cases f <;> rfl

theorem uidBase_cons_succ (u : Int) (n : ℕ) (rest : List ℕ) (f : ℕ) :
    uidBase u (n :: rest) (f + 1) = uidBase (u + (n : Int)) rest f := rfl

theorem le_uidBase : ∀ (ns : List ℕ) (u : Int) (f : ℕ), u ≤ uidBase u ns f
  | ns, u, 0 => le_of_eq (uidBase_zero u ns).symm
  | [], u, f + 1 => le_of_eq (uidBase_nil u (f + 1)).symm
  | n :: rest, u, f + 1 => by
    rw [uidBase_cons_succ]
    exact le_trans (Int.le_add_of_nonneg_right (Int.ofNat_nonneg n))
      (le_uidBase rest (u + (n : Int)) f)

theorem uidBase_mono : ∀ (ns : List ℕ) (u : Int) (f f' : ℕ), f ≤ f' →
    uidBase u ns f ≤ uidBase u ns f'
  | ns, u, 0, f', _ => by
    rw [uidBase_zero]
    exact le_uidBase ns u f'
  | _, _, _ + 1, 0, h => absurd h (by omega)
  | [], u, _ + 1, _ + 1, _ => by rw [uidBase_nil, uidBase_nil]
  | n :: rest, u, f + 1, f' + 1, h => by
    rw [uidBase_cons_succ, uidBase_cons_succ]
    exact uidBase_mono rest (u + (n : Int)) f f' (Nat.succ_le_succ_iff.mp h)

theorem uidBase_succ : ∀ (ns : List ℕ) (u : Int) (f : ℕ), f < ns.length →
    uidBase u ns (f + 1) = uidBase u ns f + ((ns.getD f 0 : ℕ) : Int)
  | [], _, f, h => absurd h (by simp)
  | n :: rest, u, 0, _ => by
    rw [uidBase_cons_succ, uidBase_zero, uidBase_zero]
    rfl
  | n :: rest, u, f + 1, h => by
    rw [uidBase_cons_succ, uidBase_cons_succ]
    exact uidBase_succ rest (u + (n : Int)) f (by simpa using h)

/-- Separation of the id ranges of distinct frames: frame `f`'s ids stop
before frame `f'`'s ids start. -/
theorem uidBase_sep (ns : List ℕ) (u : Int) {f f' : ℕ} (hff : f < f')
    (hf : f < ns.length) :
    uidBase u ns f + ((ns.getD f 0 : ℕ) : Int) ≤ uidBase u ns f' := by
  rw [← uidBase_succ ns u f hf]
  exact uidBase_mono ns u (f + 1) f' hff

theorem getD_map_nested {α β : Type} (g : α → β) (l : List α) (n : ℕ)
    (dα : α) (dβ : β) (hd : g dα = dβ) : (l.map g).getD n dβ = g (l.getD n dα) := by
  rw [List.getD_eq_getElem?_getD, List.getElem?_map, List.getD_eq_getElem?_getD]
  cases l[n]? <;> simp [hd.symm]

/-- Frame `f` of the closed-form output: the input frame mapped pointwise
through `newLabel` with frame `f`'s labels and starting id. -/
theorem closedRelabel_getD (y : List Grid) :
    ∀ (u : Int) (f : ℕ),
      (closedRelabel y u).getD f [] =
        (y.getD f []).map
          (List.map (newLabel (uniqAt y f) (uidBase u (countsOf y) f))) := by
  induction y with
  | nil =>
    intro u f
    show ([] : Grid) = List.map _ []
    rfl
  | cons yf rest ih =>
    intro u f
    cases f with
    | zero =>
      show yf.map _ = yf.map _
      rfl
    | succ f =>
      show (closedRelabel rest _).getD f [] = _
      rw [ih]
      rfl

theorem closedRelabel_pix (y : List Grid) (u : Int) (f r c : ℕ) :
    pix3 (closedRelabel y u) f r c =
      newLabel (uniqAt y f) (uidBase u (countsOf y) f) (pix3 y f r c) := by
  unfold pix3
  rw [closedRelabel_getD, getD_map_nested _ _ _ ([] : List Int) ([] : List Int) rfl,
    getD_map_nested _ _ _ (0 : Int) (0 : Int) (newLabel_zero _ _)]

theorem length_closedRelabel (y : List Grid) (u : Int) :
    (closedRelabel y u).length = y.length := by
  induction y generalizing u with
  | nil => rfl
  | cons yf rest ih => simpa [closedRelabel] using ih _

theorem pix3_mem {y : List (List (List Int))} {f r c : ℕ}
    (h : inBounds3 y f r c) : pix3 y f r c ∈ (y.getD f []).flatten := by
  obtain ⟨h1, h2, h3⟩ := h
  refine List.mem_flatten.2 ⟨(y.getD f []).getD r [], ?_, ?_⟩
  · rw [List.getD_eq_getElem _ _ h2]
    exact List.getElem_mem h2
  · rw [pix3, List.getD_eq_getElem _ _ h3]
    exact List.getElem_mem h3

theorem getD_append_length {α : Type} :
    ∀ (pre : List α) (x : α) (t : List α) (d : α),
      (pre ++ x :: t).getD pre.length d = x
  | [], _, _, _ => rfl
  | _ :: pre, x, t, d => getD_append_length pre x t d

theorem set_append_length {α : Type} :
    ∀ (pre : List α) (x v : α) (t : List α),
      (pre ++ x :: t).set pre.length v = pre ++ v :: t
  | [], _, _, _ => rfl
  | a :: pre, x, v, t => by
    show a :: (pre ++ x :: t).set pre.length v = _
    rw [set_append_length pre x v t]
    rfl

/-- Invariant of the main loop of `clean_up_annotations` (channels-last):
folding the per-frame step over the remaining frame indices relabels exactly
the remaining frames, in order. -/
theorem foldl_cleanStep :
    ∀ (post : List Grid) (uniqPost : List (List Int)) (pre : List Grid)
      (uniqPre : List (List Int)) (u : Int),
      pre.length = uniqPre.length → post.length = uniqPost.length →
      (List.range' pre.length post.length).foldl
          (cleanStep (uniqPre ++ uniqPost)) (pre ++ post, u) =
        (pre ++ (relabelSeq (post.zip uniqPost) u).1,
          (relabelSeq (post.zip uniqPost) u).2) := by
  intro post
  induction post with
  | nil =>
    intro uniqPost pre uniqPre u _ _
    simp [relabelSeq]
  | cons yf rest ih =>
    intro uniqPost pre uniqPre u hpre hpost
    cases uniqPost with
    | nil => simp at hpost
    | cons u0 urest =>
      rw [List.length_cons, List.range'_succ]
      have hu0 : (uniqPre ++ u0 :: urest).getD pre.length [] = u0 := by
        rw [hpre]
        exact getD_append_length uniqPre u0 urest []
      have hstep :
          cleanStep (uniqPre ++ u0 :: urest) (pre ++ yf :: rest, u) pre.length =
            (pre ++ (relabelGrid yf u0 u).1 :: rest, (relabelGrid yf u0 u).2) := by
        show ((pre ++ yf :: rest).set pre.length
              (relabelGrid ((pre ++ yf :: rest).getD pre.length [])
                ((uniqPre ++ u0 :: urest).getD pre.length []) u).1,
            (relabelGrid ((pre ++ yf :: rest).getD pre.length [])
                ((uniqPre ++ u0 :: urest).getD pre.length []) u).2) = _
        rw [getD_append_length pre yf rest [], hu0, set_append_length]
      rw [List.foldl_cons, hstep]
      have happ : uniqPre ++ u0 :: urest = (uniqPre ++ [u0]) ++ urest := by simp
      have h1 : pre ++ (relabelGrid yf u0 u).1 :: rest =
          (pre ++ [(relabelGrid yf u0 u).1]) ++ rest := by simp
      have h2 : pre.length + 1 = (pre ++ [(relabelGrid yf u0 u).1]).length := by simp
      rw [happ, h1, h2, ih urest (pre ++ [(relabelGrid yf u0 u).1])
        (uniqPre ++ [u0]) (relabelGrid yf u0 u).2 (by simp [hpre])
        (by simpa using hpost)]
      show (_, _) = (_, _)
      simp [relabelSeq, List.zip]

/-- The imperative state evolution of `clean_up_annotations` equals the
structural frame-by-frame relabeling. -/
theorem cleanUpState_eq (y : List Grid) (uid : Option Int) :
    cleanUpState y uid =
      relabelSeq (y.zip (allUniques y)) (defaultUid (allUniques y) uid) := by
  have h := foldl_cleanStep y (allUniques y) [] [] (defaultUid (allUniques y) uid)
    rfl (by simp [allUniques])
  simpa [cleanUpState, List.range_eq_range'] using h

theorem clean_up_eq_closed (y : List Grid) (uid : Option Int) :
    clean_up_annotations y uid = closedRelabel y (defaultUid (allUniques y) uid) := by
  rw [clean_up_annotations, cleanUpState_eq, relabelSeq_eq_closed]

theorem countsOf_eq (y : List Grid) : (allUniques y).map List.length = countsOf y := by
  simp [allUniques, countsOf]

theorem defaultUid_none (y : List Grid) :
    defaultUid (allUniques y) none = ((countsOf y).sum : ℕ) + 1 := by
  rw [defaultUid, countsOf_eq]

theorem flat3_cons (a : Grid) (l : List Grid) :
    flat3 (a :: l) = a.flatten ++ flat3 l := by
  simp [flat3]

theorem flatten_map_map (g : Int → Int) (yf : Grid) :
    (yf.map (List.map g)).flatten = yf.flatten.map g :=
  (List.map_flatten g yf).symm

/-- Every non-zero value produced by the closed-form relabeling is at least
the starting id. -/
theorem closedRelabel_vals_lb (y : List Grid) :
    ∀ (u v : Int), v ∈ flat3 (closedRelabel y u) → v ≠ 0 → u ≤ v := by
  induction y with
  | nil =>
    intro u v hv _
    simp [flat3, closedRelabel] at hv
  | cons yf rest ih =>
    intro u v hv hv0
    have hrec : closedRelabel (yf :: rest) u =
        yf.map (List.map (newLabel (npUniqueNonzero yf.flatten) u)) ::
          closedRelabel rest (u + ((npUniqueNonzero yf.flatten).length : ℕ)) := rfl
    rw [hrec, flat3_cons, List.mem_append] at hv
    rcases hv with hv | hv
    · rw [flatten_map_map, List.mem_map] at hv
      obtain ⟨x, _, hxv⟩ := hv
      by_cases h0 : x = 0
      · rw [h0, newLabel_zero] at hxv
        exact absurd hxv.symm hv0
      · rw [newLabel_of_ne h0] at hxv
        rw [← hxv]
        exact Int.le_add_of_nonneg_right (Int.ofNat_nonneg _)
    · exact le_trans (Int.le_add_of_nonneg_right (Int.ofNat_nonneg _)) (ih _ v hv hv0)

/-- The non-zero values of one relabeled frame are exactly the image of the
frame's labels under rank shifting. -/
theorem frameVals (yf : Grid) (u : Int) (hu : 1 ≤ u) :
    ((yf.map (List.map (newLabel (npUniqueNonzero yf.flatten) u))).flatten.toFinset).erase 0 =
      ((npUniqueNonzero yf.flatten).toFinset).image
        (fun x => u + (((npUniqueNonzero yf.flatten).indexOf x : ℕ) : Int)) := by
  rw [flatten_map_map]
  ext v
  simp only [Finset.mem_erase, List.mem_toFinset, List.mem_map, Finset.mem_image]
  constructor
  · rintro ⟨hv0, x, hxm, hxv⟩
    by_cases h0 : x = 0
    · rw [h0, newLabel_zero] at hxv
      exact absurd hxv.symm hv0
    · rw [newLabel_of_ne h0] at hxv
      exact ⟨x, mem_npUniqueNonzero.2 ⟨hxm, h0⟩, hxv⟩
  · rintro ⟨x, hx, hxv⟩
    obtain ⟨hxm, hx0⟩ := mem_npUniqueNonzero.mp hx
    refine ⟨?_, x, hxm, by rw [newLabel_of_ne hx0]; exact hxv⟩
    rw [← hxv]
    have : (0 : Int) ≤ ((npUniqueNonzero yf.flatten).indexOf x : ℕ) :=
      Int.ofNat_nonneg _
    omega

/-- The count of distinct non-zero values of one relabeled frame is the
frame's distinct non-zero label count. -/
theorem frameVals_card (yf : Grid) (u : Int) (hu : 1 ≤ u) :
    (((yf.map (List.map (newLabel (npUniqueNonzero yf.flatten) u))).flatten.toFinset).erase 0).card =
      (npUniqueNonzero yf.flatten).length := by
  rw [frameVals yf u hu, Finset.card_image_of_injOn, List.toFinset_card_of_nodup
    (nodup_npUniqueNonzero _)]
  intro x₁ h₁ x₂ h₂ he
  simp only [Finset.coe_image, Finset.mem_coe, List.mem_toFinset] at h₁ h₂
  simp only [add_right_inj, Nat.cast_inj] at he
  exact (List.indexOf_inj h₁ h₂).mp he

/-- Every non-zero value of one relabeled frame is below the next frame's
starting id. -/
theorem frameVals_ub (yf : Grid) (u : Int) (hu : 1 ≤ u) {v : Int}
    (hv : v ∈ ((yf.map (List.map (newLabel (npUniqueNonzero yf.flatten) u))).flatten.toFinset).erase 0) :
    v < u + ((npUniqueNonzero yf.flatten).length : ℕ) := by
  rw [frameVals yf u hu] at hv
  simp only [Finset.mem_image, List.mem_toFinset] at hv
  obtain ⟨x, hx, hxv⟩ := hv
  have := List.indexOf_lt_length.2 hx
  omega

/-- The distinct non-zero values of the whole closed-form output are counted
by the per-frame distinct non-zero input label counts. -/
theorem closedRelabel_card (y : List Grid) :
    ∀ u : Int, 1 ≤ u →
      ((flat3 (closedRelabel y u)).toFinset.erase 0).card = (countsOf y).sum := by
  induction y with
  | nil =>
    intro u _
    simp [flat3, closedRelabel, countsOf]
  | cons yf rest ih =>
    intro u hu
    have hrec : closedRelabel (yf :: rest) u =
        yf.map (List.map (newLabel (npUniqueNonzero yf.flatten) u)) ::
          closedRelabel rest (u + ((npUniqueNonzero yf.flatten).length : ℕ)) := rfl
    rw [hrec, flat3_cons, List.toFinset_append, Finset.erase_union_distrib]
    have hdisj :
        Disjoint
          (((yf.map (List.map (newLabel (npUniqueNonzero yf.flatten) u))).flatten.toFinset).erase 0)
          (((flat3 (closedRelabel rest (u + ((npUniqueNonzero yf.flatten).length : ℕ)))).toFinset).erase 0) := by
      rw [Finset.disjoint_left]
      intro v hvA hvB
      have hub := frameVals_ub yf u hu hvA
      have hvB' := Finset.mem_erase.mp hvB
      have hlb := closedRelabel_vals_lb rest _ v
        (List.mem_toFinset.mp hvB'.2) hvB'.1
      omega
    rw [Finset.card_union_of_disjoint hdisj, frameVals_card yf u hu,
      ih _ (le_trans hu (Int.le_add_of_nonneg_right (Int.ofNat_nonneg _)))]
    simp [countsOf]

theorem countsOf_getD (y : List Grid) (f : ℕ) :
    (countsOf y).getD f 0 = (uniqAt y f).length := by
  rw [countsOf, getD_map_nested _ _ _ ([] : Grid) 0 rfl, uniqAt]

theorem closedRelabel_frame_len (y : List Grid) (u : Int) (f : ℕ) :
    ((closedRelabel y u).getD f []).length = (y.getD f []).length := by
  rw [closedRelabel_getD]
  simp

theorem closedRelabel_row_len (y : List Grid) (u : Int) (f r : ℕ) :
    (((closedRelabel y u).getD f []).getD r []).length =
      ((y.getD f []).getD r []).length := by
  rw [closedRelabel_getD, getD_map_nested _ _ _ ([] : List Int) ([] : List Int) rfl]
  simp

theorem closedRelabel_bg (y : List Grid) (u : Int) (f r c : ℕ)
    (h : pix3 y f r c = 0) : pix3 (closedRelabel y u) f r c = 0 := by
  rw [closedRelabel_pix, h, newLabel_zero]

theorem closedRelabel_const (y : List Grid) (u : Int) (f r c r' c' : ℕ)
    (hsame : pix3 y f r c = pix3 y f r' c') :
    pix3 (closedRelabel y u) f r c = pix3 (closedRelabel y u) f r' c' := by
  rw [closedRelabel_pix, closedRelabel_pix, hsame]

theorem pix3_ne_zero_mem {y : List Grid} {f r c : ℕ} (h : inBounds3 y f r c)
    (hne : pix3 y f r c ≠ 0) : pix3 y f r c ∈ uniqAt y f :=
  mem_npUniqueNonzero.2 ⟨pix3_mem h, hne⟩

/-- Non-zero output pixels are at least the starting id. -/
theorem closedRelabel_pix_lb (y : List Grid) (u : Int) (f r c : ℕ)
    (hne : pix3 (closedRelabel y u) f r c ≠ 0) :
    u ≤ pix3 (closedRelabel y u) f r c := by
  rw [closedRelabel_pix] at hne ⊢
  by_cases h0 : pix3 y f r c = 0
  · rw [h0, newLabel_zero] at hne
    exact absurd rfl hne
  · rw [newLabel_of_ne h0]
    exact le_trans (le_uidBase _ _ _) (Int.le_add_of_nonneg_right (Int.ofNat_nonneg _))

/-- Equal non-zero output pixels live in the same frame and carry the same
original label: the relabeling separates the id ranges of distinct frames
and is injective on each frame's labels. -/
theorem closedRelabel_inj (y : List Grid) (u : Int) {f r c f' r' c' : ℕ}
    (h : inBounds3 y f r c) (h' : inBounds3 y f' r' c')
    (heq : pix3 (closedRelabel y u) f r c = pix3 (closedRelabel y u) f' r' c')
    (hne : pix3 (closedRelabel y u) f r c ≠ 0) :
    f = f' ∧ pix3 y f r c = pix3 y f' r' c' := by
  rw [closedRelabel_pix] at heq hne
  rw [closedRelabel_pix] at heq
  have hx0 : pix3 y f r c ≠ 0 := by
    intro h0
    rw [h0, newLabel_zero] at hne
    exact hne rfl
  have hx'0 : pix3 y f' r' c' ≠ 0 := by
    intro h0
    rw [h0, newLabel_zero] at heq
    exact hne (heq.trans rfl)
  have hxm : pix3 y f r c ∈ uniqAt y f := pix3_ne_zero_mem h hx0
  have hx'm : pix3 y f' r' c' ∈ uniqAt y f' := pix3_ne_zero_mem h' hx'0
  rw [newLabel_of_ne hx0, newLabel_of_ne hx'0] at heq
  have hidx : ((uniqAt y f).indexOf (pix3 y f r c) : ℕ) < (uniqAt y f).length :=
    List.indexOf_lt_length.2 hxm
  have hidx' : ((uniqAt y f').indexOf (pix3 y f' r' c') : ℕ) < (uniqAt y f').length :=
    List.indexOf_lt_length.2 hx'm
  rcases lt_trichotomy f f' with hlt | heqf | hgt
  · exfalso
    have hsep := uidBase_sep (countsOf y) u hlt (by simpa [countsOf] using h.1)
    rw [countsOf_getD] at hsep
    omega
  · subst heqf
    refine ⟨rfl, ?_⟩
    have : ((uniqAt y f).indexOf (pix3 y f r c) : ℕ) =
        ((uniqAt y f).indexOf (pix3 y f r' c') : ℕ) := by omega
    exact (List.indexOf_inj hxm hx'm).mp this
  · exfalso
    have hsep := uidBase_sep (countsOf y) u hgt (by simpa [countsOf] using h'.1)
    rw [countsOf_getD] at hsep
    omega

/-- If the volume holds any non-background pixel, the starting id itself is
assigned to some pixel. -/
theorem closedRelabel_first (y : List Grid) :
    ∀ u : Int, (∃ f r c, inBounds3 y f r c ∧ pix3 y f r c ≠ 0) →
      ∃ f r c, inBounds3 (closedRelabel y u) f r c ∧
        pix3 (closedRelabel y u) f r c = u := by
  induction y with
  | nil =>
    rintro u ⟨f, r, c, ⟨hf, -, -⟩, -⟩
    exact absurd hf (by simp)
  | cons yf rest ih =>
    rintro u ⟨f, r, c, hb, hnz⟩
    rcases hcells : npUniqueNonzero yf.flatten with - | ⟨l, tl⟩
    · -- frame 0 holds no label, so the witness pixel lies in the tail
      cases f with
      | zero =>
        exfalso
        have : pix3 (yf :: rest) 0 r c ∈ npUniqueNonzero yf.flatten :=
          pix3_ne_zero_mem (y := yf :: rest) hb hnz
        rw [hcells] at this
        exact absurd this (List.not_mem_nil _)
      | succ f =>
        have hb' : inBounds3 rest f r c :=
          ⟨by have := hb.1; simpa using this, hb.2.1, hb.2.2⟩
        have hnz' : pix3 rest f r c ≠ 0 := hnz
        obtain ⟨g, r₀, c₀, hgb, hgv⟩ := ih u ⟨f, r, c, hb', hnz'⟩
        have hu : u + (((npUniqueNonzero yf.flatten).length : ℕ) : Int) = u := by
          rw [hcells]
          simp
        refine ⟨g + 1, r₀, c₀, ?_, ?_⟩
        · have : (closedRelabel (yf :: rest) u).getD (g + 1) [] =
              (closedRelabel rest (u + ((npUniqueNonzero yf.flatten).length : ℕ))).getD g [] := rfl
          refine ⟨?_, ?_, ?_⟩
          · show g + 1 < (closedRelabel (yf :: rest) u).length
            have hg := hgb.1
            rw [length_closedRelabel] at hg
            rw [length_closedRelabel]
            simpa using Nat.succ_lt_succ hg
          · rw [this, hu]
            exact hgb.2.1
          · rw [this, hu]
            exact hgb.2.2
        · show pix3 (closedRelabel rest (u + ((npUniqueNonzero yf.flatten).length : ℕ))) g r₀ c₀ = u
          rw [hu]
          exact hgv
    · -- frame 0's smallest label receives the starting id itself
      have hlm : l ∈ npUniqueNonzero yf.flatten := by
        rw [hcells]
        exact List.mem_cons_self l tl
      obtain ⟨hlf, hl0⟩ := mem_npUniqueNonzero.mp hlm
      obtain ⟨row, hrow, hpix⟩ := List.mem_flatten.mp hlf
      obtain ⟨r₀, hr₀, hrv⟩ := List.mem_iff_getElem.mp hrow
      obtain ⟨c₀, hc₀, hcv⟩ := List.mem_iff_getElem.mp hpix
      have hyf : (yf :: rest).getD 0 [] = yf := rfl
      have hrowD : (yf.getD r₀ []) = row := by
        rw [List.getD_eq_getElem _ _ hr₀, hrv]
      have hpy : pix3 (yf :: rest) 0 r₀ c₀ = l := by
        show (((yf :: rest).getD 0 []).getD r₀ []).getD c₀ 0 = l
        rw [hyf, hrowD, List.getD_eq_getElem _ _ hc₀, hcv]
      have hcells' : uniqAt (yf :: rest) 0 = l :: tl := by
        rw [uniqAt, hyf, hcells]
      refine ⟨0, r₀, c₀, ⟨?_, ?_, ?_⟩, ?_⟩
      · rw [length_closedRelabel]
        simp
      · show r₀ < ((closedRelabel (yf :: rest) u).getD 0 []).length
        rw [closedRelabel_frame_len, hyf]
        exact hr₀
      · show c₀ < (((closedRelabel (yf :: rest) u).getD 0 []).getD r₀ []).length
        rw [closedRelabel_row_len, hyf, hrowD]
        exact hc₀
      · rw [closedRelabel_pix, hpy, uidBase_zero, hcells',
          newLabel_of_ne hl0, List.indexOf_cons_self]
        simp

/-! ### The channels-first layout reduces to relabeling the time slices -/

theorem getD_set_self {α : Type} (l : List α) (k : ℕ) (v d : α)
    (h : k < l.length) : (l.set k v).getD k d = v := by
  rw [List.getD_eq_getElem _ _ (by simpa using h)]
  exact List.getElem_set_self _

theorem getD_set_ne {α : Type} (l : List α) {k f : ℕ} (v d : α) (h : k ≠ f) :
    (l.set k v).getD f d = l.getD f d := by
  rcases Nat.lt_or_ge f l.length with hf | hf
  · rw [List.getD_eq_getElem _ _ (by simpa using hf), List.getD_eq_getElem _ _ hf]
    exact List.getElem_set_ne h _
  · rw [List.getD_eq_default _ _ (by simpa using hf), List.getD_eq_default _ _ hf]

theorem sliceAt_getD (y : List (List (List Int))) (f c : ℕ) :
    (sliceAt y f).getD c [] = (y.getD c []).getD f [] := by
  rw [sliceAt]
  exact getD_map_nested (fun ch => ch.getD f []) y c [] [] rfl

theorem length_sliceAt (y : List (List (List Int))) (f : ℕ) :
    (sliceAt y f).length = y.length := by
  simp [sliceAt]

theorem length_slicesOf (y : List (List (List Int))) (T : ℕ) :
    (slicesOf y T).length = T := by
  simp [slicesOf]

theorem length_allUniquesCF (y : List (List (List Int))) (T : ℕ) :
    (allUniquesCF y T).length = T := by
  simp [allUniquesCF]

theorem slicesOf_getD (y : List (List (List Int))) (T f : ℕ) (hf : f < T) :
    (slicesOf y T).getD f [] = sliceAt y f := by
  rw [List.getD_eq_getElem _ _ (by simpa [slicesOf] using hf)]
  simp [slicesOf]

theorem allUniquesCF_getD (y : List (List (List Int))) (T f : ℕ) (hf : f < T) :
    (allUniquesCF y T).getD f [] = npUniqueNonzero (sliceAt y f).flatten := by
  rw [List.getD_eq_getElem _ _ (by simpa [allUniquesCF] using hf)]
  simp [allUniquesCF]

theorem pix3_slicesOf (y : List (List (List Int))) (T c f s : ℕ) (hf : f < T) :
    pix3 (slicesOf y T) f c s = pix3 y c f s := by
  rw [pix3, pix3, slicesOf_getD _ _ _ hf, sliceAt_getD]

theorem countsOf_slicesOf (y : List (List (List Int))) (T : ℕ) :
    countsOf (slicesOf y T) = (allUniquesCF y T).map List.length := by
  simp [countsOf, slicesOf, allUniquesCF, List.map_map]

theorem getD_zip {α β : Type} :
    ∀ (l₁ : List α) (l₂ : List β) (k : ℕ) (d₁ : α) (d₂ : β),
      k < l₁.length → k < l₂.length →
      (l₁.zip l₂).getD k (d₁, d₂) = (l₁.getD k d₁, l₂.getD k d₂)
  | [], _, k, _, _, h₁, _ => absurd h₁ (by simp)
  | _ :: _, [], k, _, _, _, h₂ => absurd h₂ (by simp)
  | a :: t₁, b :: t₂, 0, _, _, _, _ => rfl
  | a :: t₁, b :: t₂, k + 1, d₁, d₂, h₁, h₂ =>
    getD_zip t₁ t₂ k d₁ d₂ (by simpa using h₁) (by simpa using h₂)

theorem relabelSeq_fst_length :
    ∀ (pairs : List (Grid × List Int)) (u : Int),
      (relabelSeq pairs u).1.length = pairs.length
  | [], _ => rfl
  | p :: rest, u => by
    show ((relabelGrid p.1 p.2 u).1 :: _).length = _
    simp [relabelSeq_fst_length rest _]

theorem relabelSeq_fst_getD :
    ∀ (pairs : List (Grid × List Int)) (u : Int) (f : ℕ), f < pairs.length →
      (relabelSeq pairs u).1.getD f [] =
        (relabelGrid (pairs.getD f ([], [])).1 (pairs.getD f ([], [])).2
          (uidBase u (pairs.map (fun p => p.2.length)) f)).1
  | [], _, f, h => absurd h (by simp)
  | p :: rest, u, 0, _ => by
    show (relabelGrid p.1 p.2 u).1 = _
    rw [uidBase_zero]
    rfl
  | p :: rest, u, f + 1, h => by
    show (relabelSeq rest (relabelGrid p.1 p.2 u).2).1.getD f [] = _
    rw [relabelSeq_fst_getD rest _ f (by simpa using h), relabelGrid_snd]
    rfl

/-- Invariant of the main loop of `clean_up_annotations` (channels-first):
folding the per-slice step over the remaining frame indices leaves an array
whose slice `f` is slice `f` of the sequential relabeling of the time
slices. -/
theorem foldl_cleanStepCF (y : List (List (List Int))) (T : ℕ) (u0 : Int) :
    ∀ (m k : ℕ) (arr : List (List (List Int))) (u : Int),
      k + m = T →
      arr.length = y.length →
      (∀ c, c < y.length → (arr.getD c []).length = T) →
      (∀ c f, c < y.length → f < T →
        (arr.getD c []).getD f [] =
          if f < k then
            ((relabelSeq ((slicesOf y T).zip (allUniquesCF y T)) u0).1.getD f []).getD c []
          else (y.getD c []).getD f []) →
      u = uidBase u0 ((allUniquesCF y T).map List.length) k →
      (((List.range' k m).foldl (cleanStepCF (allUniquesCF y T)) (arr, u)).1.length = y.length ∧
        (∀ c, c < y.length →
          ((((List.range' k m).foldl (cleanStepCF (allUniquesCF y T)) (arr, u)).1.getD c [])).length = T) ∧
        (∀ c f, c < y.length → f < T →
          ((((List.range' k m).foldl (cleanStepCF (allUniquesCF y T)) (arr, u)).1.getD c [])).getD f [] =
            ((relabelSeq ((slicesOf y T).zip (allUniquesCF y T)) u0).1.getD f []).getD c [])) := by
  intro m
  induction m with
  | zero =>
    intro k arr u hkm h1 h2 h3 h4
    refine ⟨h1, h2, fun c f hc hf => ?_⟩
    have := h3 c f hc hf
    rw [if_pos (by omega)] at this
    exact this
  | succ m ih =>
    intro k arr u hkm h1 h2 h3 h4
    have hkT : k < T := by omega
    -- the slice read from the partially mutated array is the original slice
    have hsl : sliceAt arr k = sliceAt y k := by
      apply List.ext_getElem
      · simp [sliceAt, h1]
      · intro c hc hc'
        have hcy : c < y.length := by simpa [sliceAt] using hc'
        simp only [sliceAt, List.getElem_map]
        have harr : arr[c] = arr.getD c [] :=
          (List.getD_eq_getElem _ _ (by rw [h1]; exact hcy)).symm
        have hyy : y[c] = y.getD c [] := (List.getD_eq_getElem _ _ hcy).symm
        rw [harr, hyy]
        have := h3 c k hcy hkT
        rw [if_neg (by omega)] at this
        exact this
    have hcellsk : (allUniquesCF y T).getD k [] = npUniqueNonzero (sliceAt y k).flatten :=
      allUniquesCF_getD y T k hkT
    have hpairlen : ((slicesOf y T).zip (allUniquesCF y T)).length = T := by
      simp [length_slicesOf, length_allUniquesCF]
    have hpairk : ((slicesOf y T).zip (allUniquesCF y T)).getD k ([], []) =
        (sliceAt y k, (allUniquesCF y T).getD k []) := by
      rw [getD_zip _ _ k [] [] (by rw [length_slicesOf]; exact hkT)
        (by rw [length_allUniquesCF]; exact hkT), slicesOf_getD y T k hkT]
    have hns : ((slicesOf y T).zip (allUniquesCF y T)).map (fun p => p.2.length) =
        (allUniquesCF y T).map List.length := by
      have hsnd := List.map_snd_zip (slicesOf y T) (allUniquesCF y T)
        (by rw [length_slicesOf, length_allUniquesCF])
      calc ((slicesOf y T).zip (allUniquesCF y T)).map (fun p => p.2.length)
          = (((slicesOf y T).zip (allUniquesCF y T)).map Prod.snd).map List.length := by
            rw [List.map_map]; rfl
        _ = (allUniquesCF y T).map List.length := by rw [hsnd]
    -- the slice relabeled in this iteration is entry `k` of the sequential pass
    have hrseq : (relabelGrid (sliceAt y k) ((allUniquesCF y T).getD k []) u).1 =
        ((relabelSeq ((slicesOf y T).zip (allUniquesCF y T)) u0).1.getD k []) := by
      rw [relabelSeq_fst_getD _ _ _ (by rw [hpairlen]; exact hkT), hpairk, hns, ← h4]
    have hstep : cleanStepCF (allUniquesCF y T) (arr, u) k =
        ((arr.zip (relabelGrid (sliceAt y k) ((allUniquesCF y T).getD k []) u).1).map
            (fun p => p.1.set k p.2),
          (relabelGrid (sliceAt y k) ((allUniquesCF y T).getD k []) u).2) := by
      show ((arr.zip (relabelGrid (sliceAt arr k) ((allUniquesCF y T).getD k []) u).1).map
            (fun p => p.1.set k p.2),
          (relabelGrid (sliceAt arr k) ((allUniquesCF y T).getD k []) u).2) = _
      rw [hsl]
    have hr1 : (relabelGrid (sliceAt y k) ((allUniquesCF y T).getD k []) u).1 =
        (sliceAt y k).map
          (List.map (newLabel (npUniqueNonzero (sliceAt y k).flatten) u)) := by
      rw [hcellsk, relabelGrid_fst]
    have hr1len : (relabelGrid (sliceAt y k) ((allUniquesCF y T).getD k []) u).1.length =
        y.length := by
      rw [hr1]
      simp [length_sliceAt, sliceAt]
    have hr2 : (relabelGrid (sliceAt y k) ((allUniquesCF y T).getD k []) u).2 =
        uidBase u0 ((allUniquesCF y T).map List.length) (k + 1) := by
      rw [relabelGrid_snd, h4, uidBase_succ _ _ _
        (by rw [List.length_map, length_allUniquesCF]; exact hkT)]
      rw [getD_map_nested List.length _ k ([] : List Int) 0 rfl]
    have ha'len : ((arr.zip (relabelGrid (sliceAt y k) ((allUniquesCF y T).getD k []) u).1).map
        (fun p => p.1.set k p.2)).length = y.length := by
      rw [List.length_map, List.length_zip, h1, hr1len, min_self]
    have ha'getD : ∀ c, c < y.length →
        ((arr.zip (relabelGrid (sliceAt y k) ((allUniquesCF y T).getD k []) u).1).map
            (fun p => p.1.set k p.2)).getD c [] =
          (arr.getD c []).set k
            ((relabelGrid (sliceAt y k) ((allUniquesCF y T).getD k []) u).1.getD c []) := by
      intro c hc
      rw [getD_map_nested (fun p => p.1.set k p.2)
          (arr.zip (relabelGrid (sliceAt y k) ((allUniquesCF y T).getD k []) u).1)
          c ([], []) [] rfl,
        getD_zip arr _ c [] [] (by rw [h1]; exact hc) (by rw [hr1len]; exact hc)]
    rw [List.range'_succ, List.foldl_cons, hstep]
    refine ih (k + 1)
      ((arr.zip (relabelGrid (sliceAt y k) ((allUniquesCF y T).getD k []) u).1).map
        (fun p => p.1.set k p.2))
      (relabelGrid (sliceAt y k) ((allUniquesCF y T).getD k []) u).2
      (by omega) ha'len ?_ ?_ hr2
    · intro c hc
      rw [ha'getD c hc, List.length_set]
      exact h2 c hc
    · intro c f hc hf
      rw [ha'getD c hc]
      by_cases hfk : f = k
      · subst hfk
        rw [getD_set_self _ _ _ _ (by rw [h2 c hc]; exact hkT), if_pos (by omega), ← hrseq]
      · rw [getD_set_ne _ _ _ (fun he => hfk he.symm), h3 c f hc hf]
        by_cases hfk2 : f < k
        · rw [if_pos hfk2, if_pos (by omega)]
        · rw [if_neg hfk2, if_neg (by omega)]

theorem allUniquesCF_eq (y : List (List (List Int))) (T : ℕ) :
    allUniquesCF y T = allUniques (slicesOf y T) := by
  simp [allUniquesCF, allUniques, slicesOf, List.map_map]

/-- Shape and per-slice characterization of the channels-first relabeler:
its output has the input's channel structure, and slice `f` of the output is
slice `f` of the closed-form relabeling of the input's time slices. -/
theorem cleanCF_props (y : List (List (List Int))) (uid : Option Int)
    (hrect : ∀ ch ∈ y, ch.length = (y.headD []).length) :
    (cleanUpAnnotationsCF y uid).length = y.length ∧
      (∀ c, c < y.length →
        ((cleanUpAnnotationsCF y uid).getD c []).length = (y.headD []).length) ∧
      (∀ c f, c < y.length → f < (y.headD []).length →
        ((cleanUpAnnotationsCF y uid).getD c []).getD f [] =
          ((closedRelabel (slicesOf y (y.headD []).length)
              (defaultUid (allUniques (slicesOf y (y.headD []).length)) uid)).getD f []).getD c []) := by
  have hu0 : defaultUid (allUniquesCF y (y.headD []).length) uid =
      defaultUid (allUniques (slicesOf y (y.headD []).length)) uid := by
    rw [allUniquesCF_eq]
  have hout : cleanUpAnnotationsCF y uid =
      ((List.range' 0 (y.headD []).length).foldl
        (cleanStepCF (allUniquesCF y (y.headD []).length))
        (y, defaultUid (allUniquesCF y (y.headD []).length) uid)).1 := by
    rw [cleanUpAnnotationsCF, List.range_eq_range']
  have h := foldl_cleanStepCF y (y.headD []).length
    (defaultUid (allUniquesCF y (y.headD []).length) uid) (y.headD []).length 0 y
    (defaultUid (allUniquesCF y (y.headD []).length) uid) (by omega) rfl
    (fun c hc => by
      rw [List.getD_eq_getElem _ _ hc]
      exact hrect _ (List.getElem_mem hc))
    (fun c f hc hf => by rw [if_neg (by omega)])
    (uidBase_zero _ _).symm
  obtain ⟨hL, hCL, hPix⟩ := h
  refine ⟨by rw [hout]; exact hL, fun c hc => by rw [hout]; exact hCL c hc,
    fun c f hc hf => ?_⟩
  rw [hout, hPix c f hc hf, allUniquesCF_eq, relabelSeq_eq_closed, ← hu0, allUniquesCF_eq]

/-- Pixel-level characterization of the channels-first relabeler via the
transposed (slice-major) closed form. -/
theorem cleanCF_pix (y : List (List (List Int))) (uid : Option Int)
    (hrect : ∀ ch ∈ y, ch.length = (y.headD []).length) (c f s : ℕ)
    (hc : c < y.length) (hf : f < (y.headD []).length) :
    pix3 (cleanUpAnnotationsCF y uid) c f s =
      pix3 (closedRelabel (slicesOf y (y.headD []).length)
        (defaultUid (allUniques (slicesOf y (y.headD []).length)) uid)) f c s := by
  have h := (cleanCF_props y uid hrect).2.2 c f hc hf
  rw [pix3, pix3, h]

theorem mem_flat3_iff {v : List (List (List Int))} {x : Int} :
    x ∈ flat3 v ↔ ∃ i j, i < v.length ∧ j < (v.getD i []).length ∧
      x ∈ (v.getD i []).getD j [] := by
  simp only [flat3, List.mem_flatten]
  constructor
  · rintro ⟨b, ⟨a, ha, hb⟩, hx⟩
    obtain ⟨i, hi, hia⟩ := List.mem_iff_getElem.mp ha
    obtain ⟨j, hj, hjb⟩ := List.mem_iff_getElem.mp hb
    have hva : v.getD i [] = a := by rw [List.getD_eq_getElem _ _ hi, hia]
    refine ⟨i, j, hi, ?_, ?_⟩
    · rw [hva]
      exact hj
    · rw [hva, List.getD_eq_getElem _ _ hj, hjb]
      exact hx
  · rintro ⟨i, j, hi, hj, hx⟩
    refine ⟨(v.getD i []).getD j [], ⟨v.getD i [], ?_, ?_⟩, hx⟩
    · rw [List.getD_eq_getElem _ _ hi]
      exact List.getElem_mem hi
    · rw [List.getD_eq_getElem _ _ hj]
      exact List.getElem_mem hj

/-- The channels-first output holds exactly the values of the slice-major
closed form (the same rows, regrouped by channel instead of by time). -/
theorem cleanCF_toFinset (y : List (List (List Int))) (uid : Option Int)
    (hrect : ∀ ch ∈ y, ch.length = (y.headD []).length) :
    (flat3 (cleanUpAnnotationsCF y uid)).toFinset =
      (flat3 (closedRelabel (slicesOf y (y.headD []).length)
        (defaultUid (allUniques (slicesOf y (y.headD []).length)) uid))).toFinset := by
  obtain ⟨hL, hCL, hPix⟩ := cleanCF_props y uid hrect
  ext x
  simp only [List.mem_toFinset, mem_flat3_iff]
  constructor
  · rintro ⟨c, f, hc', hf', hx⟩
    have hc : c < y.length := by rwa [hL] at hc'
    have hf : f < (y.headD []).length := by rwa [hCL c hc] at hf'
    rw [hPix c f hc hf] at hx
    refine ⟨f, c, ?_, ?_, hx⟩
    · rw [length_closedRelabel, length_slicesOf]
      exact hf
    · rw [closedRelabel_frame_len, slicesOf_getD _ _ _ hf, length_sliceAt]
      exact hc
  · rintro ⟨f, c, hf', hc', hx⟩
    have hf : f < (y.headD []).length := by
      rwa [length_closedRelabel, length_slicesOf] at hf'
    have hc : c < y.length := by
      rwa [closedRelabel_frame_len, slicesOf_getD _ _ _ hf, length_sliceAt] at hc'
    refine ⟨c, f, by rwa [hL], by rwa [hCL c hc], ?_⟩
    rw [hPix c f hc hf]
    exact hx

theorem defaultUid_pos (y : List Grid) (uid : Option Int)
    (huid : ∀ u, uid = some u → 1 ≤ u) : 1 ≤ defaultUid (allUniques y) uid := by
  cases uid with
  | none =>
    rw [defaultUid_none]
    have : (0 : Int) ≤ ((countsOf y).sum : ℕ) := Int.ofNat_nonneg _
    omega
  | some u => exact huid u rfl

theorem countsOf_cards (y : List Grid) :
    ((countsOf y).sum : ℕ) =
      (y.map (fun g => (g.flatten.toFinset.erase 0).card)).sum :=
  congrArg List.sum (List.map_congr_left fun g _ => length_npUniqueNonzero g.flatten)

theorem allUniquesCF_counts (y : List (List (List Int))) (T : ℕ) :
    (((allUniquesCF y T).map List.length).sum : ℕ) =
      ((List.range T).map
        (fun f => ((sliceAt y f).flatten.toFinset.erase 0).card)).sum := by
  rw [allUniquesCF, List.map_map]
  exact congrArg List.sum
    (List.map_congr_left fun f _ => length_npUniqueNonzero (sliceAt y f).flatten)

/-! ### Claim theorems -/

/-- Claim C2: for every annotation volume (no batch dimension) and either
layout, `clean_up_annotations` preserves the shape, makes every non-background
output value unique across the whole volume (one (frame, label) region per
value), produces exactly as many distinct non-background values as the sum
over frames of per-frame distinct non-background input counts, and keeps all
background pixels at 0.  The first conjunct is the channels-last layout, the
second the channels-first layout (channel-major nested lists, rectangular in
the time axis); an explicitly passed starting id is assumed positive, as a
non-positive starting id would collide with the background value. -/
theorem c2_global_uniqueness :
    (∀ (y : List Grid) (uid : Option Int), (∀ u, uid = some u → 1 ≤ u) →
      (clean_up_annotations y uid).length = y.length ∧
      (∀ f r, ((clean_up_annotations y uid).getD f []).length = (y.getD f []).length ∧
        (((clean_up_annotations y uid).getD f []).getD r []).length =
          ((y.getD f []).getD r []).length) ∧
      (∀ f r c f' r' c', inBounds3 y f r c → inBounds3 y f' r' c' →
        pix3 (clean_up_annotations y uid) f r c =
          pix3 (clean_up_annotations y uid) f' r' c' →
        pix3 (clean_up_annotations y uid) f r c ≠ 0 →
        f = f' ∧ pix3 y f r c = pix3 y f' r' c') ∧
      (∀ f r c r' c', pix3 y f r c = pix3 y f r' c' →
        pix3 (clean_up_annotations y uid) f r c =
          pix3 (clean_up_annotations y uid) f r' c') ∧
      ((flat3 (clean_up_annotations y uid)).toFinset.erase 0).card =
        (y.map (fun g => (g.flatten.toFinset.erase 0).card)).sum ∧
      (∀ f r c, pix3 y f r c = 0 → pix3 (clean_up_annotations y uid) f r c = 0)) ∧
    (∀ (y : List (List (List Int))) (uid : Option Int),
      (∀ u, uid = some u → 1 ≤ u) →
      (∀ ch ∈ y, ch.length = (y.headD []).length) →
      (cleanUpAnnotationsCF y uid).length = y.length ∧
      (∀ c, c < y.length →
        ((cleanUpAnnotationsCF y uid).getD c []).length = (y.getD c []).length) ∧
      (∀ c f, c < y.length → f < (y.headD []).length →
        (((cleanUpAnnotationsCF y uid).getD c []).getD f []).length =
          ((y.getD c []).getD f []).length) ∧
      (∀ c f s c' f' s', inBounds3 y c f s → inBounds3 y c' f' s' →
        pix3 (cleanUpAnnotationsCF y uid) c f s =
          pix3 (cleanUpAnnotationsCF y uid) c' f' s' →
        pix3 (cleanUpAnnotationsCF y uid) c f s ≠ 0 →
        f = f' ∧ pix3 y c f s = pix3 y c' f' s') ∧
      (∀ c f s c' s', c < y.length → c' < y.length → f < (y.headD []).length →
        pix3 y c f s = pix3 y c' f s' →
        pix3 (cleanUpAnnotationsCF y uid) c f s =
          pix3 (cleanUpAnnotationsCF y uid) c' f s') ∧
      ((flat3 (cleanUpAnnotationsCF y uid)).toFinset.erase 0).card =
        ((List.range (y.headD []).length).map
          (fun f => ((sliceAt y f).flatten.toFinset.erase 0).card)).sum ∧
      (∀ c f s, c < y.length → f < (y.headD []).length → pix3 y c f s = 0 →
        pix3 (cleanUpAnnotationsCF y uid) c f s = 0)) := by
  constructor
  · intro y uid huid
    have hpos := defaultUid_pos y uid huid
    have he := clean_up_eq_closed y uid
    refine ⟨?_, ?_, ?_, ?_, ?_, ?_⟩
    · rw [he, length_closedRelabel]
    · intro f r
      exact ⟨by rw [he, closedRelabel_frame_len], by rw [he, closedRelabel_row_len]⟩
    · intro f r c f' r' c' hb hb' heq hne
      rw [he] at heq hne
      exact closedRelabel_inj y _ hb hb' heq hne
    · intro f r c r' c' hsame
      rw [he]
      exact closedRelabel_const y _ f r c r' c' hsame
    · rw [he, closedRelabel_card y _ hpos, ← countsOf_cards]
    · intro f r c h0
      rw [he]
      exact closedRelabel_bg y _ f r c h0
  · intro y uid huid hrect
    have hpos := defaultUid_pos (slicesOf y (y.headD []).length) uid huid
    obtain ⟨hL, hCL, hPix⟩ := cleanCF_props y uid hrect
    have hylen : ∀ c, c < y.length → (y.getD c []).length = (y.headD []).length := by
      intro c hc
      rw [List.getD_eq_getElem _ _ hc]
      exact hrect _ (List.getElem_mem hc)
    refine ⟨hL, ?_, ?_, ?_, ?_, ?_, ?_⟩
    · intro c hc
      rw [hCL c hc, hylen c hc]
    · intro c f hc hf
      rw [hPix c f hc hf, closedRelabel_getD,
        getD_map_nested _ _ _ ([] : List Int) ([] : List Int) rfl, List.length_map,
        slicesOf_getD _ _ _ hf, sliceAt_getD]
    · intro c f s c' f' s' hb hb' heq hne
      have hfT : f < (y.headD []).length := by
        have := hb.2.1
        rwa [hylen c hb.1] at this
      have hf'T : f' < (y.headD []).length := by
        have := hb'.2.1
        rwa [hylen c' hb'.1] at this
      rw [cleanCF_pix y uid hrect c f s hb.1 hfT,
        cleanCF_pix y uid hrect c' f' s' hb'.1 hf'T] at heq
      rw [cleanCF_pix y uid hrect c f s hb.1 hfT] at hne
      have hbs : inBounds3 (slicesOf y (y.headD []).length) f c s := by
        refine ⟨by rw [length_slicesOf]; exact hfT, ?_, ?_⟩
        · rw [slicesOf_getD _ _ _ hfT, length_sliceAt]
          exact hb.1
        · rw [slicesOf_getD _ _ _ hfT, sliceAt_getD]
          exact hb.2.2
      have hbs' : inBounds3 (slicesOf y (y.headD []).length) f' c' s' := by
        refine ⟨by rw [length_slicesOf]; exact hf'T, ?_, ?_⟩
        · rw [slicesOf_getD _ _ _ hf'T, length_sliceAt]
          exact hb'.1
        · rw [slicesOf_getD _ _ _ hf'T, sliceAt_getD]
          exact hb'.2.2
      obtain ⟨hff, hpixeq⟩ := closedRelabel_inj (slicesOf y (y.headD []).length) _
        hbs hbs' heq hne
      rw [pix3_slicesOf _ _ _ _ _ hfT, pix3_slicesOf _ _ _ _ _ hf'T] at hpixeq
      exact ⟨hff, hpixeq⟩
    · intro c f s c' s' hc hc' hfT hsame
      rw [cleanCF_pix y uid hrect c f s hc hfT,
        cleanCF_pix y uid hrect c' f s' hc' hfT]
      apply closedRelabel_const
      rw [pix3_slicesOf _ _ _ _ _ hfT, pix3_slicesOf _ _ _ _ _ hfT]
      exact hsame
    · rw [show ((flat3 (cleanUpAnnotationsCF y uid)).toFinset.erase 0).card =
          ((flat3 (closedRelabel (slicesOf y (y.headD []).length)
            (defaultUid (allUniques (slicesOf y (y.headD []).length)) uid))).toFinset.erase 0).card from by
          rw [cleanCF_toFinset y uid hrect],
        closedRelabel_card _ _ hpos, countsOf_slicesOf, allUniquesCF_counts]
    · intro c f s hc hfT h0
      rw [cleanCF_pix y uid hrect c f s hc hfT]
      apply closedRelabel_bg
      rw [pix3_slicesOf _ _ _ _ _ hfT]
      exact h0

/-- Witness for C2: both layouts instantiated at concrete volumes, with the
hypotheses discharged there. -/
theorem c2_witness :
    (clean_up_annotations [[[0, 1]]] none).length = 1 ∧
    pix3 (cleanUpAnnotationsCF [[[0, 5], [3, 0]]] none) 0 0 0 = 0 :=
  ⟨(c2_global_uniqueness.1 [[[0, 1]]] none (fun u h => Option.noConfusion h)).1,
   (c2_global_uniqueness.2 [[[0, 5], [3, 0]]] none (fun u h => Option.noConfusion h)
      (by decide)).2.2.2.2.2.2 0 0 0 (by decide) (by decide) (by decide)⟩

/-- Counterexample to claim C3: on Scenario A (frame 0 holding labels {1, 2},
frame 1 holding {1, 3}, 4×4 frames), `clean_up_annotations` with no explicit
starting id does NOT assign ids 1, 2 to frame 0 and 3, 4 to frame 1 — the
default starting id is 1 + (2 + 2) = 5 (utils.py line 66), not 1. -/
theorem c3_counterexample :
    clean_up_annotations
        [[[1, 1, 0, 0], [1, 1, 0, 0], [0, 0, 2, 2], [0, 0, 2, 2]],
         [[1, 0, 0, 3], [1, 0, 0, 3], [0, 0, 0, 0], [3, 3, 0, 0]]] none ≠
      [[[1, 1, 0, 0], [1, 1, 0, 0], [0, 0, 2, 2], [0, 0, 2, 2]],
       [[3, 0, 0, 4], [3, 0, 0, 4], [0, 0, 0, 0], [4, 4, 0, 0]]] := by
  decide

/-- Amended claim C3: on Scenario A the relabeler with no explicit starting
id assigns ids 5, 6 to frame 0's labels 1, 2 and ids 7, 8 to frame 1's
labels 1, 3, in that order, with all background pixels remaining 0 (the
default starting id is 1 plus the total per-frame distinct label count,
which is 5 here). -/
theorem c3_scenarioA_amended :
    clean_up_annotations
        [[[1, 1, 0, 0], [1, 1, 0, 0], [0, 0, 2, 2], [0, 0, 2, 2]],
         [[1, 0, 0, 3], [1, 0, 0, 3], [0, 0, 0, 0], [3, 3, 0, 0]]] none =
      [[[5, 5, 0, 0], [5, 5, 0, 0], [0, 0, 6, 6], [0, 0, 6, 6]],
       [[7, 0, 0, 8], [7, 0, 0, 8], [0, 0, 0, 0], [8, 8, 0, 0]]] := by
  decide

/-- Claim C8: with no explicit starting id, the first id
`clean_up_annotations` assigns equals 1 plus the sum over frames of the
per-frame distinct non-background label counts: every non-background output
value is at least that id, and some output pixel carries exactly that id. -/
theorem c8_default_uid (y : List Grid)
    (hnz : ∃ f r c, inBounds3 y f r c ∧ pix3 y f r c ≠ 0) :
    (∀ f r c, pix3 (clean_up_annotations y none) f r c ≠ 0 →
      ((y.map (fun g => (g.flatten.toFinset.erase 0).card)).sum : ℕ) + 1 ≤
        pix3 (clean_up_annotations y none) f r c) ∧
    (∃ f r c, inBounds3 (clean_up_annotations y none) f r c ∧
      pix3 (clean_up_annotations y none) f r c =
        ((y.map (fun g => (g.flatten.toFinset.erase 0).card)).sum : ℕ) + 1) := by
  have he := clean_up_eq_closed y none
  have hu : defaultUid (allUniques y) none =
      ((y.map (fun g => (g.flatten.toFinset.erase 0).card)).sum : ℕ) + 1 := by
    rw [defaultUid_none]
    have := countsOf_cards y
    omega
  constructor
  · intro f r c hne
    rw [he] at hne ⊢
    rw [← hu]
    exact closedRelabel_pix_lb y _ f r c hne
  · obtain ⟨f, r, c, hb, hv⟩ := closedRelabel_first y (defaultUid (allUniques y) none) hnz
    refine ⟨f, r, c, by rw [he]; exact hb, ?_⟩
    rw [he, hv, hu]

/-- Witness for C8: a one-frame volume holding label 7 has total distinct
count 1, and some output pixel indeed carries id 1 + 1 = 2. -/
theorem c8_witness :
    ∃ f r c, inBounds3 (clean_up_annotations [[[7]]] none) f r c ∧
      pix3 (clean_up_annotations [[[7]]] none) f r c =
        ((([[[7]]] : List Grid).map
          (fun g => (g.flatten.toFinset.erase 0).card)).sum : ℕ) + 1 :=
  (c8_default_uid [[[7]]] ⟨0, 0, 0, by decide, by decide⟩).2

/-- Counterexample to claim C9: `clean_up_annotations` writes the relabeled
frames into the caller's array (`y[frame] = y_frame_new`, utils.py line 76)
before returning `y.astype('int32')`, so the caller's argument is NOT
unchanged: for the one-pixel volume holding label 1 the buffer afterwards
holds the new id 2. -/
theorem c9_counterexample : cleanUpMutatedArg [[[1]]] none ≠ [[[1]]] := by
  decide

/-- Amended claim C9: the call mutates its argument in place — after the
call the caller's array holds exactly the relabeled volume (the same integer
values as the returned `int32` array), namely the closed-form relabeling. -/
theorem c9_mutation_amended (y : List Grid) (uid : Option Int) :
    cleanUpMutatedArg y uid = clean_up_annotations y uid ∧
    cleanUpMutatedArg y uid = closedRelabel y (defaultUid (allUniques y) uid) :=
  ⟨rfl, clean_up_eq_closed y uid⟩

/-! ### Facts about the pair sampling estimator -/

theorem le_foldl_max : ∀ (l : List Int) (a : Int), a ≤ l.foldl max a
  | [], _ => le_refl _
  | x :: t, a => le_trans (le_max_left a x) (le_foldl_max t (max a x))

theorem listMax_nonneg (l : List Int) : 0 ≤ listMax l :=
  le_foldl_max l 0

theorem foldl_max_le : ∀ (l : List Int) (a c : Int), (∀ x ∈ l, x ≤ c) → a ≤ c →
    l.foldl max a ≤ c
  | [], _, _, _, ha => ha
  | x :: t, a, c, h, ha =>
    foldl_max_le t (max a x) c (fun z hz => h z (List.mem_cons_of_mem _ hz))
      (max_le ha (h x (List.mem_cons_self _ _)))

theorem length_le_sum : ∀ (l : List Int), (∀ x ∈ l, 1 ≤ x) → (l.length : Int) ≤ l.sum
  | [], _ => by simp
  | x :: t, h => by
    have h1 := h x (List.mem_cons_self _ _)
    have h2 := length_le_sum t (fun z hz => h z (List.mem_cons_of_mem _ hz))
    simp only [List.length_cons, List.sum_cons]
    push_cast
    omega

theorem cellsPerImage_length (df : DataFormat) (y : Tensor5) (b : ℕ) :
    (cellsPerImage df y b).length = numFrames5 df y := by
  simp [cellsPerImage]

/-- The `non_self_pairings` quantity is never negative: on a rectangular
tensor with at least one frame, either every frame is empty (making the
maximum count 0) or every per-frame count is at least 1 (making the floored
average at least 1). -/
theorem nonSelfPairings5_nonneg (df : DataFormat) (y : Tensor5) (b : ℕ)
    (hT : 1 ≤ numFrames5 df y) (huf : uniformFrames5 df y) (hb : b < y.length) :
    0 ≤ nonSelfPairings5 df y b := by
  have hTpos : (0 : Int) < ((numFrames5 df y : ℕ) : Int) := by exact_mod_cast hT
  by_cases hemp : (framePixels5 df y b 0).length = 0
  · -- every frame of this batch item is empty, so every count is 0
    have hz : ∀ x ∈ cellsPerImage df y b, x = 0 := by
      intro x hx
      rw [cellsPerImage, List.mem_map] at hx
      obtain ⟨f, hf, hfx⟩ := hx
      rw [List.mem_range] at hf
      have hlen := huf b hb f hf 0 hT
      rw [hemp] at hlen
      have : framePixels5 df y b f = [] := List.length_eq_zero.mp hlen
      rw [← hfx, this]
      rfl
    have hmax : listMax (cellsPerImage df y b) = 0 :=
      le_antisymm (foldl_max_le _ _ _ (fun x hx => le_of_eq (hz x hx)) (le_refl 0))
        (listMax_nonneg _)
    rw [nonSelfPairings5, hmax, mul_zero]
  · -- every frame of this batch item is non-empty, so every count is ≥ 1
    have hone : ∀ x ∈ cellsPerImage df y b, 1 ≤ x := by
      intro x hx
      rw [cellsPerImage, List.mem_map] at hx
      obtain ⟨f, hf, hfx⟩ := hx
      rw [List.mem_range] at hf
      have hlen := huf b hb f hf 0 hT
      have hne : framePixels5 df y b f ≠ [] := by
        intro hnil
        rw [hnil] at hlen
        exact hemp hlen.symm
      obtain ⟨z, hzmem⟩ := List.exists_mem_of_ne_nil _ hne
      have : 0 < (framePixels5 df y b f).toFinset.card :=
        Finset.card_pos.2 ⟨z, List.mem_toFinset.2 hzmem⟩
      rw [← hfx]
      show (1 : Int) ≤ ((npUniqueLen (framePixels5 df y b f) : ℕ) : Int)
      rw [npUniqueLen]
      exact_mod_cast this
    have hsum : ((numFrames5 df y : ℕ) : Int) ≤ (cellsPerImage df y b).sum := by
      have := length_le_sum (cellsPerImage df y b) hone
      rwa [cellsPerImage_length] at this
    have havg : 1 ≤ averageCells5 df y b := by
      rw [averageCells5, Int.fdiv_eq_ediv _ (le_of_lt hTpos),
        Int.le_ediv_iff_mul_le hTpos]
      omega
    refine mul_nonneg (mul_nonneg ?_ (le_of_lt hTpos)) (listMax_nonneg _)
    omega

theorem pairsForBatch_nonneg (df : DataFormat) (y : Tensor5) (p : ℚ) (b : ℕ)
    (hp : 0 < p) (hT : 1 ≤ numFrames5 df y) (huf : uniformFrames5 df y)
    (hb : b < y.length) : 0 ≤ pairsForBatch df y p b := by
  have h := nonSelfPairings5_nonneg df y b hT huf hb
  rw [pairsForBatch]
  exact Int.le_floor.2 (by
    rw [Int.cast_zero]
    exact div_nonneg (by exact_mod_cast h) (le_of_lt hp))

theorem pairsForBatch_mono (df : DataFormat) (y : Tensor5) (p1 p2 : ℚ) (b : ℕ)
    (hp2 : 0 < p2) (hp21 : p2 ≤ p1) (hT : 1 ≤ numFrames5 df y)
    (huf : uniformFrames5 df y) (hb : b < y.length) :
    pairsForBatch df y p1 b ≤ pairsForBatch df y p2 b := by
  have h := nonSelfPairings5_nonneg df y b hT huf hb
  rw [pairsForBatch, pairsForBatch]
  exact Int.floor_le_floor
    (div_le_div_of_nonneg_left (by exact_mod_cast h) hp2 hp21)

/-- Claim C7: on a rectangular 5D tensor with at least one frame, the result
of `count_pairs` is a non-negative integer, and decreasing `same_probability`
never decreases the result, for either layout. -/
theorem c7_monotonicity (y : Tensor5) (df : DataFormat) (p1 p2 : ℚ)
    (hT : 1 ≤ numFrames5 df y) (huf : uniformFrames5 df y)
    (hp2 : 0 < p2) (hp21 : p2 ≤ p1) (_hp1 : p1 ≤ 1) :
    0 ≤ count_pairs y p1 df ∧ count_pairs y p1 df ≤ count_pairs y p2 df := by
  have hp1pos : 0 < p1 := lt_of_lt_of_le hp2 hp21
  constructor
  · rw [count_pairs]
    apply List.sum_nonneg
    intro x hx
    rw [List.mem_map] at hx
    obtain ⟨b, hbm, hbx⟩ := hx
    rw [List.mem_range] at hbm
    rw [← hbx]
    exact pairsForBatch_nonneg df y p1 b hp1pos hT huf hbm
  · rw [count_pairs, count_pairs]
    apply List.sum_le_sum
    intro b hbm
    rw [List.mem_range] at hbm
    exact pairsForBatch_mono df y p1 p2 b hp2 hp21 hT huf hbm

/-- Witness for C7 at a concrete one-batch tensor and probabilities 1 and
1/2. -/
theorem c7_witness :
    0 ≤ count_pairs [[[[[0], [1]]]]] 1 DataFormat.channels_last ∧
      count_pairs [[[[[0], [1]]]]] 1 DataFormat.channels_last ≤
        count_pairs [[[[[0], [1]]]]] (1 / 2) DataFormat.channels_last :=
  c7_monotonicity [[[[[0], [1]]]]] DataFormat.channels_last 1 (1 / 2)
    (by decide) (by decide) (by norm_num) (by norm_num) (by norm_num)

/-- Counterexample to claim C6: `count_pairs` does not compute the claimed
formula built from distinct NON-background per-frame label counts — the code
calls `len(np.unique(...))` without removing the background value (utils.py
lines 134-136).  On a one-pixel-pair frame holding {0, 1} the code counts
2 distinct values and returns 4, while the claimed formula counts 1
non-background label and returns 0. -/
theorem c6_counterexample :
    count_pairs [[[[[0], [1]]]]] (1 / 2) DataFormat.channels_last ≠
      count_pairs_claimed [[[[[0], [1]]]]] (1 / 2) DataFormat.channels_last := by
  have h2 : nonSelfPairings5 DataFormat.channels_last [[[[[0], [1]]]]] 0 = 2 := by
    decide
  have h0 : nonSelfPairingsClaimed DataFormat.channels_last [[[[[0], [1]]]]] 0 = 0 := by
    decide
  have hc : count_pairs [[[[[0], [1]]]]] (1 / 2) DataFormat.channels_last = 4 := by
    rw [count_pairs, show List.range [[[[[(0 : Int)], [1]]]]].length = [0] from rfl]
    simp [pairsForBatch, h2]
    norm_num
  have hcl : count_pairs_claimed [[[[[0], [1]]]]] (1 / 2) DataFormat.channels_last = 0 := by
    rw [count_pairs_claimed, show List.range [[[[[(0 : Int)], [1]]]]].length = [0] from rfl]
    simp [pairsForBatchClaimed, h0]
  rw [hc, hcl]
  decide

/-- Amended claim C6: `count_pairs` computes, for each batch item, the
distinct value count per frame (including the background value when
present), the integer-floored average of those counts across frames,
`non_self_cellframes = (average − 1) × num_frames`,
`non_self_pairings = non_self_cellframes × max(counts)`, and
`floor(non_self_pairings / same_probability)`; the returned total is the sum
of this quantity over batch items. -/
theorem c6_count_pairs_amended (y : Tensor5) (p : ℚ) (df : DataFormat) :
    count_pairs y p df =
      ∑ b ∈ Finset.range y.length,
        ⌊(((Int.fdiv (∑ f ∈ Finset.range (numFrames5 df y),
                ((framePixels5 df y b f).toFinset.card : Int))
              ((numFrames5 df y : ℕ) : Int) - 1) *
            ((numFrames5 df y : ℕ) : Int) *
            listMax (cellsPerImage df y b) : Int) : ℚ) / p⌋ := by
  rw [count_pairs]
  show ((List.range y.length).map _).sum = _
  rw [show ((List.range y.length).map (pairsForBatch df y p)).sum =
      ∑ b ∈ Finset.range y.length, pairsForBatch df y p b from rfl]
  refine Finset.sum_congr rfl (fun b _ => ?_)
  rw [pairsForBatch, nonSelfPairings5, nonSelfCellframes5, averageCells5]
  have : (cellsPerImage df y b).sum =
      ∑ f ∈ Finset.range (numFrames5 df y),
        ((framePixels5 df y b f).toFinset.card : Int) := by
    rw [cellsPerImage]
    rfl
  rw [this]

/-! ### Facts about the archive codec -/

theorem decodeKey_encodeKey (i : Int) : decodeKey (encodeKey i) = i := by
  simp only [encodeKey, decodeKey, Nat.ofDigits_digits]
  by_cases h : i < 0
  · rw [if_pos (by simpa using h)]
    omega
  · rw [if_neg (by simpa using h)]
    omega

theorem decodeGraph_encodeGraph (g : LineageGraph) :
    decodeGraph (encodeGraph g) = g := by
  rw [decodeGraph, encodeGraph, List.map_map]
  exact (List.map_congr_left fun kv _ => by
    simp [decodeKey_encodeKey]).trans (List.map_id g)

theorem dropWhile_head_not {α : Type} (q : α → Bool) :
    ∀ (l : List α) {x : α} {xs : List α}, l.dropWhile q = x :: xs → q x = false
  | [], x, xs, h => by simp [List.dropWhile] at h
  | a :: t, x, xs, h => by
    rw [List.dropWhile_cons] at h
    by_cases ha : q a
    · rw [if_pos ha] at h
      exact dropWhile_head_not q t h
    · rw [if_neg ha] at h
      cases h
      simpa using ha

/-- A path whose `splitext` extension is exactly `.trks` passes the
`str(filename).lower().endswith('.trks')` guard of `save_trks`. -/
theorem splitExtension_trks_endsWith (p : String)
    (h : splitExtension p = ".trks") :
    endsWithStr (lowerStr p) ".trks" = true := by
  have h' : splitExtChars p.data = ['.', 't', 'r', 'k', 's'] := congrArg String.data h
  rcases hdw : (p.data.reverse.takeWhile (fun c => c ≠ '/')).dropWhile
      (fun c => c ≠ '.') with - | ⟨d, before⟩
  · rw [splitExtChars] at h'
    simp only [hdw] at h'
    exact absurd h' (by decide)
  · rw [splitExtChars] at h'
    simp only [hdw] at h'
    by_cases hall : before.all (fun c => c = '.')
    · rw [if_pos hall] at h'
      exact absurd h' (by decide)
    · rw [if_neg hall] at h'
      have he : (p.data.reverse.takeWhile (fun c => c ≠ '/')).takeWhile
          (fun c => c ≠ '.') ++ ['.'] = ['s', 'k', 'r', 't', '.'] := by
        have := congrArg List.reverse h'
        rwa [List.reverse_reverse] at this
      have hd : d = '.' := by
        have := dropWhile_head_not (fun c => c ≠ '.') _ hdw
        simpa using this
      have hrt : (p.data.reverse.takeWhile (fun c => c ≠ '/')).takeWhile
          (fun c => c ≠ '.') = ['s', 'k', 'r', 't'] := by
        have htk := congrArg (List.take 4) he
        rwa [List.take_left' (by
          have := congrArg List.length he
          simpa using this)] at htk
      obtain ⟨rest2, hrest2⟩ :=
        List.takeWhile_prefix (l := p.data.reverse) (fun c => c ≠ '/')
      have hdecomp : p.data.reverse =
          ['s', 'k', 'r', 't', '.'] ++ (before ++ rest2) := by
        rw [← hrest2, ← List.takeWhile_append_dropWhile
          (p := fun c => c ≠ '.') (l := p.data.reverse.takeWhile (fun c => c ≠ '/')),
          hdw, hrt, hd]
        rfl
      have htake : p.data.reverse.take 5 = ['s', 'k', 'r', 't', '.'] := by
        rw [hdecomp]
        rfl
      rw [endsWithStr, lowerStr]
      show ((p.data.map Char.toLower).reverse.take
        (".trks".data.length) == ".trks".data.reverse) = true
      rw [show (".trks".data.length) = 5 from rfl, ← List.map_reverse, ← List.map_take,
        htake]
      decide

/-- A fully populated multi-batch archive loads to the decoded lineages and
the two tensors. -/
theorem load_trks_full (fs : FileSys) (path : String) (tar : TarFile)
    (hfs : fs path = some tar) (raw tracked : Tensor5) (ls : List JsonGraph)
    (hr : tar.rawNpy = some raw) (ht : tar.trackedNpy = some tracked)
    (hl : tar.lineagesJson = some ls) (hext : splitExtension path = ".trks") :
    load_trks fs path = Except.ok ⟨ls.map decodeGraph, raw, tracked⟩ := by
  rw [load_trks, hfs]
  simp only [hr, ht]
  rw [if_pos hext]
  simp only [hl]

/-- Claim C1 counterexample: for the path `".trks"` — which ends with
`.trks`, so `save_trks` accepts it — `os.path.splitext` finds no extension
(the dot heads the basename), so `load_trks` reaches the final `return` with
`lineages` unbound and fails, and the save/load round trip does not hold. -/
theorem c1_counterexample :
    (save_trks (fun _ => none) ".trks" [] [] []).2 = Except.ok () ∧
    load_trks (save_trks (fun _ => none) ".trks" [] [] []).1 ".trks" =
      Except.error TrksError.unboundLocal := by
  constructor
  · rfl
  · rfl

/-- Amended claim C1: for every path whose `splitext` extension is exactly
`.trks`, saving any lineage list and tensor pair of equal shape with
`save_trks` and loading that path with `load_trks` succeeds and returns the
raw tensor as `X`, the tracked tensor as `y`, and the lineage list with
every key restored to an integer. -/
theorem c1_roundtrip_amended (fs : FileSys) (path : String)
    (lineages : List LineageGraph) (raw tracked : Tensor5)
    (hext : splitExtension path = ".trks")
    (_hshape : shape5 raw = shape5 tracked) :
    (save_trks fs path lineages raw tracked).2 = Except.ok () ∧
    load_trks (save_trks fs path lineages raw tracked).1 path =
      Except.ok ⟨lineages, raw, tracked⟩ := by
  have hg := splitExtension_trks_endsWith path hext
  constructor
  · rw [save_trks, if_pos (by rw [hg])]
  · rw [save_trks, if_pos (by rw [hg])]
    show load_trks _ path = _
    rw [load_trks_full _ path
      ⟨some (lineages.map encodeGraph), none, some raw, some tracked⟩
      (by simp) raw tracked (lineages.map encodeGraph) rfl rfl rfl hext]
    refine congrArg Except.ok (congrArg (fun l => LoadResult.mk l raw tracked) ?_)
    rw [List.map_map]
    exact (List.map_congr_left fun g _ => by
      simp [Function.comp_apply, decodeGraph_encodeGraph]).trans
      (List.map_id lineages)

/-- Witness for the amended C1 at a concrete path, lineage list and tensor
pair. -/
theorem c1_roundtrip_witness :
    (save_trks (fun _ => none) "test.trks"
        [[(5, ⟨[2], [0], none⟩)]] [[[[[1]]]]] [[[[[9]]]]]).2 = Except.ok () ∧
    load_trks (save_trks (fun _ => none) "test.trks"
        [[(5, ⟨[2], [0], none⟩)]] [[[[[1]]]]] [[[[[9]]]]]).1 "test.trks" =
      Except.ok ⟨[[(5, ⟨[2], [0], none⟩)]], [[[[[1]]]]], [[[[[9]]]]]⟩ :=
  c1_roundtrip_amended (fun _ => none) "test.trks"
    [[(5, ⟨[2], [0], none⟩)]] [[[[[1]]]]] [[[[[9]]]]] (by decide) rfl

/-- Claim C5: `save_trks` on a path that fails the lowercased `.trks` suffix
check raises `ValueError` and leaves the filesystem untouched (the guard
precedes `tarfile.open`); `trks_stats` on a path whose lowercased extension
is neither `.trks` nor `.trk` raises `ValueError` for every filesystem
state, i.e. before any I/O. -/
theorem c5_extension_guard :
    (∀ (fs : FileSys) (path : String) (lineages : List LineageGraph)
        (raw tracked : Tensor5),
      endsWithStr (lowerStr path) ".trks" = false →
      save_trks fs path lineages raw tracked =
        (fs, Except.error TrksError.invalidArgument)) ∧
    (∀ path : String, lowerStr (splitExtension path) ≠ ".trks" →
      lowerStr (splitExtension path) ≠ ".trk" →
      ∀ fs : FileSys,
        trks_stats fs path = Except.error TrksError.invalidArgument) := by
  constructor
  · intro fs path lineages raw tracked hg
    rw [save_trks, if_neg (by rw [hg]; exact Bool.false_ne_true)]
  · intro path h1 h2 fs
    rw [trks_stats, trksStatsPrinted]
    simp only [h1, h2, or_self, if_false, if_neg]
    rfl

/-- Witness for C5 at the path `data.tar`. -/
theorem c5_witness :
    save_trks (fun _ => none) "data.tar" [] [] [] =
      ((fun _ => none : FileSys), Except.error TrksError.invalidArgument) ∧
    trks_stats (fun _ => none) "data.tar" =
      Except.error TrksError.invalidArgument :=
  ⟨c5_extension_guard.1 (fun _ => none) "data.tar" [] [] [] (by decide),
   c5_extension_guard.2 "data.tar" (by decide) (by decide) (fun _ => none)⟩

/-- Claim C10: on a readable container holding both tensor entries but named
with an extension that is neither `.trk` nor `.trks`, `load_trks` reads both
tensor blobs and then fails with the unbound-variable error (`lineages` is
never assigned), not with a missing-entry error, and returns no result. -/
theorem c10_unbound_lineages (fs : FileSys) (path : String) (tar : TarFile)
    (hfs : fs path = some tar) (hraw : ∃ r, tar.rawNpy = some r)
    (htr : ∃ t, tar.trackedNpy = some t)
    (h1 : splitExtension path ≠ ".trks") (h2 : splitExtension path ≠ ".trk") :
    load_trks fs path = Except.error TrksError.unboundLocal := by
  obtain ⟨r, hr⟩ := hraw
  obtain ⟨t, ht⟩ := htr
  rw [load_trks, hfs]
  simp only [hr, ht]
  rw [if_neg h1, if_neg h2]

/-- Witness for C10 at a `.npz` path holding both tensor blobs. -/
theorem c10_witness :
    load_trks
      (fun p => if p = "data.npz" then some ⟨none, none, some [], some []⟩ else none)
      "data.npz" = Except.error TrksError.unboundLocal :=
  c10_unbound_lineages _ "data.npz" ⟨none, none, some [], some []⟩
    (by simp) ⟨[], rfl⟩ ⟨[], rfl⟩ (by decide) (by decide)

/-! ### Facts about the statistics pass -/

theorem computeStats_numLineages (d : LoadResult) :
    (computeStats d).numLineages = d.lineages.length := rfl

theorem computeStats_totalTracks (d : LoadResult) :
    (computeStats d).totalTracks =
      ((d.lineages.map (fun tracks =>
        tracks.map (fun kv => (kv.1, kv.2.daughters)))).map List.length).sum := rfl

theorem computeStats_totalDivisions (d : LoadResult) :
    (computeStats d).totalDivisions =
      ((d.lineages.map (fun tracks =>
          tracks.map (fun kv => (kv.1, kv.2.daughters)))).map
        (fun db => db.countP (fun kv => !kv.2.isEmpty))).sum := rfl

theorem computeStats_density (d : LoadResult) :
    (computeStats d).avgCellDensity =
      npAverageQ (d.y.map (fun batchFrames =>
          npAverageI (batchFrames.map (fun fr => (npUniqueLen (flat3 fr) : ℕ) - 1)))) /
        ((shape2 d.X * shape3 d.X : ℕ) : ℚ) * 100 := rfl

theorem computeStats_avgTrack (d : LoadResult) :
    (computeStats d).avgTrackLength =
      npAverageQ ((List.range (d.lineages.map (fun tracks =>
          tracks.map (fun kv => (kv.1, kv.2.daughters)))).length).map (fun b =>
        npAverageI (((d.lineages.map (fun tracks =>
            tracks.map (fun kv => (kv.1, kv.2.daughters)))).getD b []).map (fun kv =>
          (((d.y.getD b []).countP (fun fr => decide (kv.1 ∈ flat3 fr))) : ℕ))))) := rfl

/-- Counterexample to claim C4: `trks_stats` does not return a structured
report — the Python function body ends without a `return` statement
(utils.py lines 285-325 only print), so its value is `None` (modelled
`Unit`): at this concrete valid archive the call's result carries no data. -/
theorem c4_counterexample :
    trks_stats
      (fun p => if p = "t.trks" then
        some ⟨some [encodeGraph [(5, ⟨[], [1], none⟩)]], none,
          some [[[[[1], [2]]]]], some [[[[[0], [5]]]]]⟩ else none)
      "t.trks" = Except.ok () := rfl

/-- Amended claim C4: on a valid multi-batch archive (as many lineage graphs
as batch items, every frame containing a background pixel), `trks_stats`
computes and prints — but does not return — the statistics report: its
number of lineages is the batch count, its cell density is the claimed
average of distinct non-background labels per frame per 100 pixels of frame
area, its track total is the number of lineage entries, its division total
counts entries with non-empty `daughters`, and its average track length is
the per-entry frame-appearance count averaged within and then across
batches; the call itself returns `None`. -/
theorem c4_stats_amended (fs : FileSys) (path : String) (tar : TarFile)
    (X y : Tensor5) (ls : List JsonGraph)
    (hfs : fs path = some tar) (hr : tar.rawNpy = some X)
    (ht : tar.trackedNpy = some y) (hl : tar.lineagesJson = some ls)
    (hext : splitExtension path = ".trks")
    (hBL : ls.length = y.length)
    (hbg : ∀ b ∈ y, ∀ fr ∈ b, (0 : Int) ∈ flat3 fr) :
    (∃ r, trksStatsPrinted fs path = Except.ok r ∧
      r.numLineages = y.length ∧
      r.avgCellDensity = claimedDensity X y ∧
      r.totalTracks = claimedTotalTracks (ls.map decodeGraph) ∧
      r.totalDivisions = claimedTotalDivisions (ls.map decodeGraph) ∧
      r.avgTrackLength = claimedTrackLength (ls.map decodeGraph) y) ∧
    trks_stats fs path = Except.ok () := by
  have hguard : lowerStr (splitExtension path) = ".trks" := by
    rw [hext]
    decide
  have hprint : trksStatsPrinted fs path =
      Except.ok (computeStats ⟨ls.map decodeGraph, X, y⟩) := by
    simp only [trksStatsPrinted]
    rw [if_pos (Or.inl hguard),
      load_trks_full fs path tar hfs X y ls hr ht hl hext]
    rfl
  refine ⟨⟨computeStats ⟨ls.map decodeGraph, X, y⟩, hprint, ?_, ?_, ?_, ?_, ?_⟩, ?_⟩
  · rw [computeStats_numLineages]
    show (ls.map decodeGraph).length = y.length
    rw [List.length_map]
    exact hBL
  · rw [computeStats_density]
    show npAverageQ (y.map _) / _ * 100 = claimedDensity X y
    rw [claimedDensity]
    have hlists : y.map (fun batchFrames =>
        npAverageI (batchFrames.map (fun fr => (npUniqueLen (flat3 fr) : ℕ) - 1))) =
      y.map (fun batchFrames =>
        npAverageI (batchFrames.map (fun fr => (nzUniqueLen (flat3 fr) : ℕ)))) := by
      refine List.map_congr_left (fun bf hbf => ?_)
      refine congrArg npAverageI (List.map_congr_left (fun fr hfr => ?_))
      have hmem : (0 : Int) ∈ (flat3 fr).toFinset :=
        List.mem_toFinset.2 (hbg bf hbf fr hfr)
      have hcard : (flat3 fr).toFinset.card =
          ((flat3 fr).toFinset.erase 0).card + 1 := by
        rw [Finset.card_erase_of_mem hmem]
        have : 0 < (flat3 fr).toFinset.card := Finset.card_pos.2 ⟨0, hmem⟩
        omega
      rw [npUniqueLen, nzUniqueLen, hcard]
      push_cast
      ring
    rw [hlists]
    ring
  · rw [computeStats_totalTracks, claimedTotalTracks, List.map_map]
    exact congrArg List.sum (List.map_congr_left fun g _ => by
      simp [Function.comp_apply, List.length_map])
  · rw [computeStats_totalDivisions, claimedTotalDivisions, List.map_map]
    refine congrArg List.sum (List.map_congr_left fun g _ => ?_)
    simp only [Function.comp_apply, List.countP_map]
    rfl
  · rw [computeStats_avgTrack, claimedTrackLength]
    show npAverageQ _ = npAverageQ _
    rw [List.length_map, List.length_map]
    refine congrArg npAverageQ (List.map_congr_left fun b _ => ?_)
    refine congrArg npAverageI ?_
    rw [getD_map_nested (fun tracks =>
        tracks.map (fun kv : Int × LineageRecord => (kv.1, kv.2.daughters)))
      (ls.map decodeGraph) b [] [] rfl, List.map_map]
    rfl
  · rw [trks_stats, hprint]
    rfl

/-- Witness for the amended C4 at a concrete one-batch archive whose frame
holds a background pixel and the label 5, with one lineage entry for it. -/
theorem c4_stats_witness :
    (∃ r, trksStatsPrinted
        (fun p => if p = "t.trks" then
          some ⟨some [encodeGraph [(5, ⟨[], [1], none⟩)]], none,
            some [[[[[1], [2]]]]], some [[[[[0], [5]]]]]⟩ else none)
        "t.trks" = Except.ok r ∧
      r.numLineages = ([[[[[0], [5]]]]] : Tensor5).length ∧
      r.avgCellDensity = claimedDensity [[[[[1], [2]]]]] [[[[[0], [5]]]]] ∧
      r.totalTracks =
        claimedTotalTracks ([[encodeGraph [(5, ⟨[], [1], none⟩)]].map decodeGraph].headD []) ∧
      r.totalDivisions =
        claimedTotalDivisions ([[encodeGraph [(5, ⟨[], [1], none⟩)]].map decodeGraph].headD []) ∧
      r.avgTrackLength =
        claimedTrackLength ([[encodeGraph [(5, ⟨[], [1], none⟩)]].map decodeGraph].headD [])
          [[[[[0], [5]]]]]) ∧
    trks_stats
      (fun p => if p = "t.trks" then
        some ⟨some [encodeGraph [(5, ⟨[], [1], none⟩)]], none,
          some [[[[[1], [2]]]]], some [[[[[0], [5]]]]]⟩ else none)
      "t.trks" = Except.ok () :=
  c4_stats_amended _ "t.trks"
    ⟨some [encodeGraph [(5, ⟨[], [1], none⟩)]], none,
      some [[[[[1], [2]]]]], some [[[[[0], [5]]]]]⟩
    [[[[[1], [2]]]]] [[[[[0], [5]]]]]
    [encodeGraph [(5, ⟨[], [1], none⟩)]] (by simp) rfl rfl rfl (by decide)
    (by decide) (by decide)

end DeepcellTracking
